import Mathlib

/-!
Shallow embedding of the dbuf (DMU buffer cache) layer: the dirty-record
write-range machinery, the read-resolve path, the dirty path for leaf
blocks, the user-record accessors and the spill-block resize clamp,
translated from the C source (`dbuf.c`).

Machine integers that the C code manipulates (offsets, sizes, txg numbers)
are modelled as `Nat`; the code never relies on overflow for these
quantities.  Raw byte memory is modelled as a function `Nat → Nat`
(byte value at each offset) carried inside an `ArcBuf` together with its
size and a buffer identity (`bid`) standing for the C pointer identity,
which the source compares with `==` on `arc_buf_t *`.
-/

namespace DbufSpec

/-- A dirty write range, from `dbuf_dirty_range_t`: `{start, end, size}`
describing bytes `[start, end)` known valid in the dirty record's buffer. -/
structure Range where
  start : Nat
  size : Nat
  end_ : Nat
deriving DecidableEq, Repr

/-- Well-formedness of a write-range list as checked by
`dbuf_dirty_record_check_ranges`: consecutive ranges satisfy
`cur->end < next->start` (sorted, strictly disjoint, non-adjacent), and
every range is non-empty with a consistent `size` field. -/
def wfRanges (rs : List Range) : Prop :=
  List.Chain' (fun r s => r.end_ < s.start) rs ∧
    ∀ r ∈ rs, r.start < r.end_ ∧ r.size = r.end_ - r.start

/-- A `Chain'` decision procedure that the kernel can evaluate (used to
check concrete range lists and TXG lists). -/
def decChain' {α : Type _} (R : α → α → Prop) [inst : DecidableRel R] :
    ∀ l : List α, Decidable (List.Chain' R l)
  | [] => isTrue List.chain'_nil
  | [_] => isTrue (List.chain'_singleton _)
  | a :: b :: t =>
      match inst a b, decChain' R (b :: t) with
      | isTrue h1, isTrue h2 => isTrue (List.chain'_cons.mpr ⟨h1, h2⟩)
      | isFalse h1, _ => isFalse fun hc => h1 (List.chain'_cons.mp hc).1
      | _, isFalse h2 => isFalse fun hc => h2 (List.chain'_cons.mp hc).2

instance {α : Type _} (R : α → α → Prop) [DecidableRel R] (l : List α) :
    Decidable (List.Chain' R l) :=
  decChain' R l

instance (rs : List Range) : Decidable (wfRanges rs) :=
  inferInstanceAs
    (Decidable (List.Chain' (fun (r s : Range) => r.end_ < s.start) rs ∧
      ∀ r ∈ rs, r.start < r.end_ ∧ r.size = r.end_ - r.start))

/-- Whether offset `i` lies inside one of the write ranges. -/
def inRanges (rs : List Range) (i : Nat) : Bool :=
  rs.any (fun r => decide (r.start ≤ i ∧ i < r.end_))

/-- An ARC buffer: byte contents, size (`arc_buf_size`), and an identity
`bid` standing for the pointer value of the `arc_buf_t`. -/
structure ArcBuf where
  bid : Nat
  data : Nat → Nat
  size : Nat

/-- The result of `memcpy(dst + pos, src + pos, len)` on the contents of
two same-indexed buffers, as performed for each hole by
`dbuf_merge_write_ranges`. -/
def memcpyAt (dst src : Nat → Nat) (pos len : Nat) : Nat → Nat :=
  fun i => if pos ≤ i ∧ i < pos + len then src i else dst i

/-- The loop of `dbuf_merge_write_ranges` over
`dbuf_dirty_record_hole_itr_next`: starting from the current
`hole_start`, copy `[hole_start, min max_offset range->start)` from the
old (src) buffer into the dirty (dst) buffer for each remaining range,
and finally the tail `[hole_start, max_offset)`.  Subtraction is on
`Nat`; the C `int` arithmetic never goes negative on the well-formed
range lists the caller asserts. -/
def fillHoles (src : Nat → Nat) (dst : Nat → Nat) (maxOff : Nat) :
    Nat → List Range → Nat → Nat
  | holeStart, [] =>
      if holeStart ≥ maxOff then dst
      else memcpyAt dst src holeStart (maxOff - holeStart)
  | holeStart, r :: rest =>
      if holeStart ≥ maxOff then dst
      else fillHoles src (memcpyAt dst src holeStart (min maxOff r.start - holeStart))
        maxOff r.end_ rest

/-- A leaf dirty record (`dbuf_dirty_record_t` with its
`dbuf_dirty_leaf_record_t` payload): TXG, per-TXG data buffer `dr_data`,
write-range list, and the two deferred write handles (`dr_zio` stashed by
the syncer, `dr_override_zio` from the immediate-write path), modelled as
optional zio identifiers. -/
structure DirtyRecord where
  txg : Nat
  drData : ArcBuf
  writeRanges : List Range
  drZio : Option Nat
  overrideZio : Option Nat

/-- Placeholder dirty record used as the default for list indexing. -/
def defaultDR : DirtyRecord :=
  { txg := 0, drData := { bid := 0, data := fun _ => 0, size := 0 },
    writeRanges := [], drZio := none, overrideZio := none }

/-- Modelled from the spec: the dbuf state bit-flags of §4.3
(`DB_UNCACHED`, `DB_NOFILL`, `DB_CACHED`, `DB_EVICTING`, `DB_PARTIAL`,
`DB_READ`, `DB_FILL`); the header defining the numeric bit values is not
among the provided sources, so each flag is a Boolean field.  `partB` is
the PARTIAL bit. -/
structure DbufState where
  uncachedB : Bool
  nofillB : Bool
  cachedB : Bool
  evictingB : Bool
  partB : Bool
  readB : Bool
  fillB : Bool
deriving DecidableEq, Repr

/-- The pure-UNCACHED state value. -/
def stUNCACHED : DbufState :=
  ⟨true, false, false, false, false, false, false⟩

/-- The pure-CACHED state value. -/
def stCACHED : DbufState :=
  ⟨false, false, true, false, false, false, false⟩

/-- The pure-READ state value (a read I/O in flight). -/
def stREAD : DbufState :=
  ⟨false, false, false, false, false, true, false⟩

/-- The pure-FILL state value (a writer owns the frontend). -/
def stFILL : DbufState :=
  ⟨false, false, false, false, false, false, true⟩

/-- The PARTIAL|FILL composite state. -/
def stPARTIAL_FILL : DbufState :=
  ⟨false, false, false, false, true, false, true⟩

/-- `DBUF_STATE_CHANGE(db, |=, DB_FILL)`. -/
def stSetFill (s : DbufState) : DbufState := { s with fillB := true }

/-- `DBUF_STATE_CHANGE(db, &=, ~DB_READ)`. -/
def stClearRead (s : DbufState) : DbufState := { s with readB := false }

/-- Block identity of a dbuf: an ordinary block id, or one of the two
reserved ids `DMU_BONUS_BLKID` / `DMU_SPILL_BLKID`. -/
inductive BlkId where
  | normal (n : Nat)
  | bonus
  | spill
deriving DecidableEq, Repr

/-- The dbuf entity (`dmu_buf_impl_t`), restricted to the fields the
verified operations touch: level, owning-object kind, block id, block
size (`db.db_size`), state, frontend buffer (`db_buf`), the dirty-record
list newest-first (`db_dirty_records`), dirty count, the TXG of the
record handed to the syncer (`db_data_pending`), the freed-in-flight
flag, the user record (`db_user`, a pointer modelled as `Option Nat`),
and a counter used to generate fresh ARC buffer identities. -/
structure Dbuf where
  level : Nat
  objMetaDnode : Bool
  blkid : BlkId
  size : Nat
  state : DbufState
  buf : Option ArcBuf
  dirtyRecords : List DirtyRecord
  dirtycnt : Nat
  dataPendingTxg : Option Nat
  freedInFlight : Bool
  user : Option Nat
  nextBid : Nat

/-! ## User records (`dmu_buf_replace_user` family) -/

/-- `dmu_buf_replace_user`: replace the current user if it matches
`old_user`; otherwise return the actual current user unchanged.  Returns
the updated dbuf and the function's return value. -/
def dmu_buf_replace_user (db : Dbuf) (old_user new_user : Option Nat) :
    Dbuf × Option Nat :=
  if db.user = old_user then ({ db with user := new_user }, old_user)
  else (db, db.user)

/-- `dmu_buf_set_user`: `replace_user(NULL, user)`. -/
def dmu_buf_set_user (db : Dbuf) (user : Option Nat) : Dbuf × Option Nat :=
  dmu_buf_replace_user db none user

/-- `dmu_buf_remove_user`: `replace_user(user, NULL)`. -/
def dmu_buf_remove_user (db : Dbuf) (user : Option Nat) : Dbuf × Option Nat :=
  dmu_buf_replace_user db user none

/-- `dmu_buf_get_user`: returns `db_user`. -/
def dmu_buf_get_user (db : Dbuf) : Option Nat :=
  db.user

/-! ## Truncation of write ranges (`dbuf_dirty_record_truncate_ranges`) -/

/-- The loop body of `dbuf_dirty_record_truncate_ranges` acting on the
write-range list reversed (head = `list_tail`): drop trailing ranges
whose `start >= new_size`; for the first surviving range set
`end = MIN(new_size, end)` and then execute the source's
`range->size = range->end - range->size;` assignment verbatim. -/
def truncateLoop (newSize : Nat) : List Range → List Range
  | [] => []
  | r :: rest =>
      if r.start ≥ newSize then truncateLoop newSize rest
      else
        ({ r with end_ := min newSize r.end_,
                  size := min newSize r.end_ - r.size } :: rest)

/-- `dbuf_dirty_record_truncate_ranges` on the range list of a level-0
dirty record (the level check and mutex assertions are callers'
context). -/
def dbuf_dirty_record_truncate_ranges (rs : List Range) (newSize : Nat) :
    List Range :=
  (truncateLoop newSize rs.reverse).reverse

/-! ## Spill block resize (`dbuf_spill_set_blksz`) -/

/-- Modelled from the spec: `SPA_MINBLOCKSIZE`, defined outside the
provided sources (512 bytes in the pool layer this code targets). -/
def SPA_MINBLOCKSIZE : Nat := 512

/-- Modelled from the spec: `SPA_MAXBLOCKSIZE`, defined outside the
provided sources (128 KiB in the pool layer this code targets). -/
def SPA_MAXBLOCKSIZE : Nat := 131072

/-- Modelled from the spec: `ENOTSUP` error number ("spill on non-spill
id" in §6), numeric value as in the host headers. -/
def ENOTSUP : Nat := 48

/-- Modelled from the spec: `P2ROUNDUP(x, align)` from the system macro
headers — round `x` up to the next multiple of `align` (power of two in
all uses here). -/
def P2ROUNDUP (x align : Nat) : Nat :=
  ((x + align - 1) / align) * align

/-- The size clamp performed by `dbuf_spill_set_blksz` before calling
`dbuf_new_size`. -/
def spillClamp (blksz : Nat) : Nat :=
  let blksz := if blksz = 0 then SPA_MINBLOCKSIZE else blksz
  if blksz > SPA_MAXBLOCKSIZE then SPA_MAXBLOCKSIZE
  else P2ROUNDUP blksz SPA_MINBLOCKSIZE

/-- `dbuf_spill_set_blksz`: reject non-spill block ids with `ENOTSUP`,
clamp the requested size, resize via `dbuf_new_size` (modelled as the
size update; the dirtying and buffer copy it performs do not affect this
function's contract), and return 0 (`Except.ok`). -/
def dbuf_spill_set_blksz (db : Dbuf) (blksz : Nat) : Except Nat Dbuf :=
  if db.blkid ≠ BlkId.spill then .error ENOTSUP
  else .ok { db with size := spillClamp blksz }

/-! ## Read completion and range resolution -/

/-- `dbuf_merge_write_ranges`: inverse merge of `old_buf` into a dirty
leaf record's buffer.  With an empty range list the dirty buffer is
entirely valid and is returned untouched; otherwise the hole iterator is
initialized (`max_offset = MIN(sizes)`; a range starting at 0 makes the
first hole begin at its `size`) and every hole is copied from the old
buffer.  The merge mutates `dr_data` in place, so the result keeps its
buffer identity. -/
def dbuf_merge_write_ranges (dl : DirtyRecord) (old_buf : ArcBuf) : ArcBuf :=
  match dl.writeRanges with
  | [] => dl.drData
  | r :: rest =>
      let maxOff := min old_buf.size dl.drData.size
      let newData :=
        if r.start = 0 then
          fillHoles old_buf.data dl.drData.data maxOff r.size rest
        else
          fillHoles old_buf.data dl.drData.data maxOff 0 (r :: rest)
      { dl.drData with data := newData }

/-- The loop of `dbuf_resolve_ranges` over the dirty records oldest
first: merge the older buffer into each record, clear its range list
(`dbuf_dirty_record_cleanup_ranges`), and carry the record's resolved
buffer forward as the older buffer for the next record. -/
def resolveGo (old_buf : ArcBuf) : List DirtyRecord → List DirtyRecord
  | [] => []
  | dr :: rest =>
      let merged := dbuf_merge_write_ranges dr old_buf
      { dr with drData := merged, writeRanges := [] } :: resolveGo merged rest

/-- `dbuf_resolve_ranges`: resolve all dirty records of a level-0 dbuf
against the buffer a completed read produced, oldest record first
(`db_dirty_records` is stored newest-first, so the walk runs over the
reversed list).  The freeze calls on intermediate buffers are ARC
bookkeeping and are not modelled. -/
def dbuf_resolve_ranges (db : Dbuf) (buf : ArcBuf) : Dbuf :=
  { db with dirtyRecords := (resolveGo buf db.dirtyRecords.reverse).reverse }

/-- The write-range list of the oldest dirty record
(`list_tail(&db->db_dirty_records)`), or `[]` when there is none. -/
def oldestRanges (db : Dbuf) : List Range :=
  ((db.dirtyRecords.getLast?).map DirtyRecord.writeRanges).getD []

/-- The stashed syncer write zio of the oldest dirty record. -/
def oldestDrZio (db : Dbuf) : Option Nat :=
  ((db.dirtyRecords.getLast?).map DirtyRecord.drZio).getD none

/-- The deferred override zio of the oldest dirty record. -/
def oldestOverrideZio (db : Dbuf) : Option Nat :=
  ((db.dirtyRecords.getLast?).map DirtyRecord.overrideZio).getD none

/-- `dbuf_dispatch_override_zio` applied to the oldest record of a
newest-first list: the override zio is issued and the field cleared. -/
def clearOverrideOldest : List DirtyRecord → List DirtyRecord
  | [] => []
  | [r] => [{ r with overrideZio := none }]
  | r :: rs => r :: clearOverrideOldest rs

/-- `dbuf_read_complete`: on a level-0 dbuf whose oldest dirty record
still has write ranges (and the read is not a hole-read synthesized for
a foreground operation), resolve the ranges against the read buffer,
update the state bits (`DB_READ → DB_CACHED`; `DB_READ|DB_FILL` loses
`DB_READ`), discard the read buffer, and issue any deferred syncer zio
and override zio of the oldest record.  Otherwise a plain `DB_READ`
completion installs the buffer as the frontend and the dbuf becomes
CACHED; in any other state the buffer is discarded.  Returns the updated
dbuf and the list of zios issued (`zio_nowait`). -/
def dbuf_read_complete (db : Dbuf) (buf : ArcBuf) (isHoleRead : Bool) :
    Dbuf × List Nat :=
  if db.level = 0 ∧ db.dirtyRecords.isEmpty = false ∧ isHoleRead = false ∧
      oldestRanges db ≠ [] then
    let db1 := dbuf_resolve_ranges db buf
    let db2 :=
      if db1.state = stREAD then { db1 with state := stCACHED }
      else if db1.state.readB then { db1 with state := stClearRead db1.state }
      else db1
    let issued := (oldestDrZio db).toList ++ (oldestOverrideZio db).toList
    ({ db2 with dirtyRecords := clearOverrideOldest db2.dirtyRecords }, issued)
  else if db.state = stREAD then
    ({ db with buf := some buf, state := stCACHED }, [])
  else
    (db, [])

/-- `dbuf_read_done`, the arc-read completion callback: on success run
`dbuf_read_complete`; on failure with dirty records outstanding, zero
the read buffer in place (`bzero`), process it as a successful read and
count one `dirty_writes_lost`; on failure with no dirty record return
the dbuf to UNCACHED.  Result: updated dbuf, zios issued, and the
increment applied to the `dirty_writes_lost` counter. -/
def dbuf_read_done (db : Dbuf) (buf : ArcBuf) (ioError : Nat) :
    Dbuf × List Nat × Nat :=
  if ioError = 0 then
    let (db', issued) := dbuf_read_complete db buf false
    (db', issued, 0)
  else if db.dirtycnt > 0 then
    let zeroed : ArcBuf := { buf with data := fun _ => 0 }
    let (db', issued) := dbuf_read_complete db zeroed false
    (db', issued, 1)
  else
    ({ db with state := stUNCACHED }, [], 0)

/-! ## Write-range accumulation (`dbuf_dirty_record_add_range`) -/

/-- The in-place merge of an existing range into the accumulated range
(`old_range->start = MIN(...); old_range->end = MAX(...);
old_range->size = old_range->end - old_range->start;`). -/
def mergedRange (r old : Range) : Range :=
  { start := min r.start old.start,
    end_ := max r.end_ old.end_,
    size := max r.end_ old.end_ - min r.start old.start }

/-- The accumulator loop of `dbuf_dirty_record_add_range`: walk the
sorted range list while `old_range->start <= range->end`; merge `old`
into the accumulated range whenever they overlap or touch
(`range->start <= old->end && range->end >= old->start`), removing the
merged entry; otherwise keep `old` in place before the insertion point.
Returns the untouched prefix, the accumulated range, and the untouched
suffix (headed by the entry the insertion goes before). -/
def addLoop (r : Range) : List Range → List Range × Range × List Range
  | [] => ([], r, [])
  | old :: rest =>
      if old.start ≤ r.end_ then
        if r.start ≤ old.end_ ∧ r.end_ ≥ old.start then
          addLoop (mergedRange r old) rest
        else
          let (p, m, s) := addLoop r rest
          (old :: p, m, s)
      else ([], r, old :: rest)

/-- `dbuf_dirty_record_add_range` on the range list of a leaf dirty
record: a full-block write clears the list outright; otherwise the new
`[offset, offset+size)` interval is accumulated through `addLoop`, and
the result is dropped rather than inserted when it has grown to cover
the whole block. -/
def addRange (rs : List Range) (dbSize offset size : Nat) : List Range :=
  if offset = 0 ∧ size = dbSize then []
  else
    let (p, m, s) := addLoop { start := offset, size := size,
                               end_ := offset + size } rs
    if m.start = 0 ∧ m.size = dbSize then p ++ s
    else p ++ m :: s

/-! ## The dirty path for leaf blocks -/

/-- The external world a read consults: whether the dbuf's block pointer
is a hole (`BP_IS_HOLE`/`dnode_block_freed`), and the buffer an
ARC-cached-only lookup would return. -/
structure ReadEnv where
  isHole : Bool
  arcHit : Option ArcBuf

/-- Events the dirty path emits, used to state ordering facts: a backing
read was issued (`arc_read` with `dbuf_read_done`), or a dirty record
was created for a TXG. -/
inductive DbufEvent where
  | readIssued
  | recordCreated (txg : Nat)
deriving DecidableEq, Repr

/-- `dbuf_alloc_arcbuf`: a fresh ARC buffer of the dbuf's block size
with a fresh identity.  The contents of a freshly allocated ARC data
buffer are indeterminate in C; the model uses zeros, and no verified
claim depends on them. -/
def dbuf_alloc_arcbuf (db : Dbuf) : ArcBuf × Dbuf :=
  ({ bid := db.nextBid, data := fun _ => 0, size := db.size },
   { db with nextBid := db.nextBid + 1 })

/-- `dbuf_read_hole`: on an UNCACHED dbuf whose block pointer is a hole,
synthesize a zero-filled buffer, move to `DB_READ` and run the read
completion as a hole read.  Returns `none` when no action was taken. -/
def dbuf_read_hole (env : ReadEnv) (db : Dbuf) : Option Dbuf :=
  if db.state = stUNCACHED then
    if env.isHole then
      let (buf, db1) := dbuf_alloc_arcbuf db
      let db2 := { db1 with state := stREAD }
      some (dbuf_read_complete db2 buf true).1
    else none
  else none

/-- `dbuf_transition_to_read`: `dbuf_read` with
`MUST_SUCCEED|NOPREFETCH|NEVERWAIT` on an UNCACHED or PARTIAL leaf —
either the hole path satisfies it immediately, or the state moves to
`DB_READ` and an asynchronous backing read is issued. -/
def dbuf_transition_to_read (env : ReadEnv) (db : Dbuf) :
    Dbuf × List DbufEvent :=
  match dbuf_read_hole env db with
  | some db' => (db', [])
  | none => ({ db with state := stREAD }, [DbufEvent.readIssued])

/-- `dbuf_read_cached`: `dbuf_read_impl` with `DB_RF_CACHED_ONLY` — a
hole is satisfied with zeros; an ARC hit is installed through
`dbuf_read_cached_done` (state forced to `DB_READ`, then the normal
completion); a miss leaves the dbuf untouched.  Returns whether the
dbuf ended up cached. -/
def dbuf_read_cached (env : ReadEnv) (db : Dbuf) : Dbuf × Bool :=
  match dbuf_read_hole env db with
  | some db' => (db', true)
  | none =>
      match env.arcHit with
      | some buf =>
          let db1 := { db with state := stREAD }
          ((dbuf_read_complete db1 buf false).1, true)
      | none => (db, false)

/-- `dbuf_dirty_handle_fault`: pre-dirty COW-fault handling for a leaf.
If PARTIAL and the newest dirty record belongs to an earlier (closed)
TXG, start an asynchronous resolving read now.  If UNCACHED and the
write is strictly inside the block (neither a prefix nor a suffix),
start a resolving read; if UNCACHED and smaller than the block, probe
the ARC for a cached copy. -/
def dbuf_dirty_handle_fault (env : ReadEnv) (db : Dbuf)
    (txg offset size : Nat) : Dbuf × List DbufEvent :=
  if db.state.partB then
    match db.dirtyRecords.head? with
    | some dr =>
        if dr.txg ≠ txg then dbuf_transition_to_read env db else (db, [])
    | none => (db, [])
  else if db.state = stUNCACHED then
    if offset ≠ 0 ∧ offset + size ≠ db.size then
      dbuf_transition_to_read env db
    else if size ≠ db.size then
      ((dbuf_read_cached env db).1, [])
    else (db, [])
  else (db, [])

/-- The insertion-point walk of `dbuf_dirty_compute_state`: whether a
dirty record for `txg` already exists (the walk skips records with a
newer TXG and checks the first remaining one). -/
def txgAlreadyDirty (rs : List DirtyRecord) (txg : Nat) : Bool :=
  match (rs.dropWhile (fun r => decide (txg < r.txg))).head? with
  | some dr => decide (dr.txg = txg)
  | none => false

/-- The TXG-ordering assertion of `dbuf_dirty_verify` /
`dbuf_dirty_compute_state`: the newest record's TXG does not exceed the
dirtying TXG unless the object is the meta-dnode. -/
def dbuf_dirty_verify_txg (db : Dbuf) (txg : Nat) : Bool :=
  match db.dirtyRecords.head? with
  | some dr => decide (dr.txg ≤ txg) || db.objMetaDnode
  | none => true

/-- `dbuf_dirty_record_register`: insert the new record after the last
record with a strictly newer TXG (`dds->insert_pt`), keeping the list
newest-first. -/
def insertDirtyRecord (rs : List DirtyRecord) (dr : DirtyRecord) :
    List DirtyRecord :=
  rs.takeWhile (fun r => decide (dr.txg < r.txg)) ++
    dr :: rs.dropWhile (fun r => decide (dr.txg < r.txg))

/-- `dbuf_dirty_record_create_leaf` followed by
`dbuf_dirty_record_register_as_leaf`: a fresh record for the TXG whose
`dr_data` is the current frontend and whose range list is empty, with
the block's pending free reverted (`db_freed_in_flight = FALSE` for
non-spill blocks), registered at its insertion point and counted. -/
def dbuf_dirty_record_create_leaf (db : Dbuf) (txg : Nat) :
    Dbuf × List DbufEvent :=
  let dr : DirtyRecord :=
    { txg := txg,
      drData := db.buf.getD { bid := 0, data := fun _ => 0, size := db.size },
      writeRanges := [], drZio := none, overrideZio := none }
  let db1 := if db.blkid ≠ BlkId.spill then
               { db with freedInFlight := false } else db
  ({ db1 with dirtyRecords := insertDirtyRecord db1.dirtyRecords dr,
              dirtycnt := db1.dirtycnt + 1 },
   [DbufEvent.recordCreated txg])

/-- `dbuf_dirty_record_update_leaf` (non-bonus): point the existing
record for the TXG at the current frontend. -/
def dbuf_dirty_record_update_leaf (db : Dbuf) (txg : Nat) : Dbuf :=
  match db.buf with
  | some front =>
      { db with dirtyRecords := db.dirtyRecords.map fun r =>
          if r.txg = txg then { r with drData := front } else r }
  | none => db

/-- `dbuf_unoverride` on the record of a TXG: any immediate-write
override state is reverted and a pending override zio dropped. -/
def applyUnoverride (db : Dbuf) (txg : Nat) : Dbuf :=
  { db with dirtyRecords := db.dirtyRecords.map fun r =>
      if r.txg = txg then { r with overrideZio := none } else r }

/-- `dbuf_dirty_set_data` with no caller-supplied buffer: allocate a
fresh frontend. -/
def dbuf_dirty_set_data (db : Dbuf) : Dbuf :=
  let (buf, db1) := dbuf_alloc_arcbuf db
  { db1 with buf := some buf }

/-- `dbuf_dirty_leaf_with_existing_frontend` for the callers modelled
here (no caller-supplied `fill_buf`): revert any override of an
already-dirty TXG; if the newest record owns the frontend, either
replace the frontend outright (deferred-resolve syncer case, the record
being `db_data_pending`) or give the newest record a private copy of the
frontend; the remaining cases only perform ARC release/thaw
bookkeeping. -/
def dbuf_dirty_leaf_with_existing_frontend (db : Dbuf) (already : Bool)
    (txg : Nat) : Dbuf :=
  let db0 := if already then applyUnoverride db txg else db
  match db0.buf with
  | none => db0
  | some front =>
      match db0.dirtyRecords.head? with
      | some newest =>
          if already = false ∧ newest.drData.bid = front.bid then
            if db0.dataPendingTxg = some newest.txg then
              dbuf_dirty_set_data db0
            else
              let (copy, db1) := dbuf_alloc_arcbuf db0
              { db1 with dirtyRecords := db1.dirtyRecords.map fun r =>
                  if r.txg = newest.txg then
                    { r with drData := { copy with data := front.data } }
                  else r }
          else db0
      | none => db0

/-- Update the record of a TXG with the write-range registration. -/
def addRangeUpd (dbSize offset size txg : Nat) (r : DirtyRecord) :
    DirtyRecord :=
  if r.txg = txg then
    { r with writeRanges := addRange r.writeRanges dbSize offset size }
  else r

/-- Whether the record of the given TXG now has an empty range list
(the `out:` test of `dbuf_dirty_record_add_range`). -/
def rangesNowEmpty (rs : List DirtyRecord) (txg : Nat) : Bool :=
  match rs.find? (fun r => r.txg == txg) with
  | some r => r.writeRanges.isEmpty
  | none => false

/-- The range registration plus the `out:` state advance of
`dbuf_dirty_record_add_range` applied to the record of a TXG: if the
dbuf is mid-READ or PARTIAL and the record's range list became empty,
the writer will finish filling and the state goes directly to
`DB_FILL`. -/
def dbuf_dirty_record_add_range_db (db : Dbuf) (txg offset size : Nat) :
    Dbuf :=
  let db1 := { db with dirtyRecords :=
      db.dirtyRecords.map (addRangeUpd db.size offset size txg) }
  if (db.state.readB || db.state.partB) &&
      rangesNowEmpty db1.dirtyRecords txg then
    { db1 with state := stFILL }
  else db1

/-- `dbuf_dirty_leaf_common`: arrange a usable frontend, create or
update the TXG's dirty record, and register the written range when the
dbuf is not already fully CACHED. -/
def dbuf_dirty_leaf_common (db : Dbuf) (already : Bool)
    (txg offset size : Nat) : Dbuf × List DbufEvent :=
  let db1 := if db.buf.isNone then dbuf_dirty_set_data db
             else dbuf_dirty_leaf_with_existing_frontend db already txg
  let (db2, ev) :=
    if already then (dbuf_dirty_record_update_leaf db1 txg, [])
    else dbuf_dirty_record_create_leaf db1 txg
  let db3 := if db2.state ≠ stCACHED then
               dbuf_dirty_record_add_range_db db2 txg offset size
             else db2
  (db3, ev)

/-- `dbuf_dirty_leaf`: the full dirty pipeline for a regular leaf block
— `dbuf_dirty_leaf_enter` (COW-fault handling, then the compute-state
walk; the wait for a concurrent filler is vacuous in this sequential
model), the state update (`UNCACHED → PARTIAL|FILL` on a first partial
write, otherwise the FILL bit is added to a READ/PARTIAL composite),
then `dbuf_dirty_leaf_common`.  Returns the dbuf and the events in
program order. -/
def dbuf_dirty_leaf (env : ReadEnv) (db : Dbuf) (txg offset size : Nat) :
    Dbuf × List DbufEvent :=
  let (db1, ev1) := dbuf_dirty_handle_fault env db txg offset size
  let already := txgAlreadyDirty db1.dirtyRecords txg
  let db2 :=
    if db1.state = stUNCACHED then { db1 with state := stPARTIAL_FILL }
    else if db1.state.readB || db1.state.partB then
      { db1 with state := stSetFill db1.state }
    else db1
  let (db3, ev2) := dbuf_dirty_leaf_common db2 already txg offset size
  (db3, ev1 ++ ev2)

/-! ## Free-range racing a filler, and `dbuf_fill_done` -/

/-- `dbuf_free_range_filler_will_free`: a dbuf currently being filled
cannot be cleared directly; flag it so that `dbuf_fill_done` performs
the clear, and report that the free-range loop should move on. -/
def dbuf_free_range_filler_will_free (db : Dbuf) : Dbuf × Bool :=
  if db.state.fillB then ({ db with freedInFlight := true }, true)
  else (db, false)

/-- `dbuf_fill_done`: when the filler finishes, a freed-in-flight dbuf
has its frontend zeroed, the current record's ranges cleared and the
state forced to CACHED (dispatching any waiting override zio); otherwise
a pure-FILL state becomes CACHED (dispatching the override zio) and a
composite state merely drops the FILL bit.  Returns the dbuf and the
zios issued. -/
def dbuf_fill_done (db : Dbuf) : Dbuf × List Nat :=
  if db.state.fillB then
    match db.dirtyRecords.head? with
    | some dr =>
        if db.freedInFlight then
          ({ db with
              buf := db.buf.map fun b => { b with data := fun _ => 0 },
              freedInFlight := false,
              dirtyRecords := db.dirtyRecords.map fun r =>
                if r.txg = dr.txg then
                  { r with writeRanges := [], overrideZio := none }
                else r,
              state := stCACHED },
           dr.overrideZio.toList)
        else if db.state = stFILL then
          ({ db with
              dirtyRecords := db.dirtyRecords.map fun r =>
                if r.txg = dr.txg then { r with overrideZio := none } else r,
              state := stCACHED },
           dr.overrideZio.toList)
        else
          ({ db with state := { db.state with fillB := false } }, [])
    | none => (db, [])
  else (db, [])

/-! ## Characterization of the inverse merge -/

theorem inRanges_nil (i : Nat) : inRanges [] i = false := rfl

theorem inRanges_cons (r : Range) (rest : List Range) (i : Nat) :
    inRanges (r :: rest) i =
      (decide (r.start ≤ i ∧ i < r.end_) || inRanges rest i) := by
  simp [inRanges]

theorem inRanges_eq_false_iff (rs : List Range) (i : Nat) :
    inRanges rs i = false ↔ ∀ r ∈ rs, ¬(r.start ≤ i ∧ i < r.end_) := by
  simp [inRanges]

theorem inRanges_eq_true_iff (rs : List Range) (i : Nat) :
    inRanges rs i = true ↔ ∃ r ∈ rs, r.start ≤ i ∧ i < r.end_ := by
  simp [inRanges]

/-- In a well-formed chain, every later range starts strictly after the
head range ends. -/
theorem ranges_lt_of_chain (r : Range) (rest : List Range)
    (hc : List.Chain' (fun a b => a.end_ < b.start) (r :: rest))
    (hlt : ∀ s ∈ rest, s.start < s.end_) :
    ∀ s ∈ rest, r.end_ < s.start := by
  induction rest generalizing r with
  | nil => intro s hs; cases hs
  | cons a t ih =>
      intro s hs
      have hra : r.end_ < a.start := List.chain'_cons.mp hc |>.1
      cases hs with
      | head => exact hra
      | tail _ hs' =>
          have ha : a.start < a.end_ := hlt a (List.mem_cons_self _ _)
          have := ih a (List.chain'_cons.mp hc).2
            (fun s hs => hlt s (List.mem_cons_of_mem _ hs)) s hs'
          omega

/-- Pointwise characterization of the hole-filling loop: positions at or
after `hole_start`, below `max_offset` and not covered by a remaining
range receive the source (old) byte; all other positions keep the
destination (dirty) byte. -/
theorem fillHoles_eq (src : Nat → Nat) (maxOff : Nat) :
    ∀ (rs : List Range) (dst : Nat → Nat) (holeStart : Nat),
      List.Chain' (fun r s => r.end_ < s.start) rs →
      (∀ r ∈ rs, r.start < r.end_) →
      (∀ r ∈ rs, holeStart ≤ r.start) →
      ∀ i, fillHoles src dst maxOff holeStart rs i =
        if holeStart ≤ i ∧ i < maxOff ∧ inRanges rs i = false then src i
        else dst i := by
  intro rs
  induction rs with
  | nil =>
      intro dst holeStart _ _ _ i
      unfold fillHoles
      by_cases hge : holeStart ≥ maxOff
      · rw [if_pos hge, if_neg (by rintro ⟨h1, h2, -⟩; omega)]
      · rw [if_neg hge]
        simp only [memcpyAt]
        by_cases hc : holeStart ≤ i ∧ i < holeStart + (maxOff - holeStart)
        · rw [if_pos hc, if_pos ⟨by omega, by omega, rfl⟩]
        · rw [if_neg hc, if_neg (by rintro ⟨h1, h2, -⟩; omega)]
  | cons r rest ih =>
      intro dst holeStart hchain hlt hhs i
      have hr : r.start < r.end_ := hlt r (List.mem_cons_self _ _)
      have hrest_lt : ∀ s ∈ rest, s.start < s.end_ :=
        fun s hs => hlt s (List.mem_cons_of_mem _ hs)
      have hrest_gt : ∀ s ∈ rest, r.end_ < s.start :=
        ranges_lt_of_chain r rest hchain hrest_lt
      unfold fillHoles
      by_cases hge : holeStart ≥ maxOff
      · rw [if_pos hge, if_neg (by rintro ⟨h1, h2, -⟩; omega)]
      · rw [if_neg hge]
        have hhr : holeStart ≤ r.start := hhs r (List.mem_cons_self _ _)
        rw [ih _ r.end_ (List.chain'_cons'.mp hchain).2 hrest_lt
          (fun s hs => Nat.le_of_lt (hrest_gt s hs)) i]
        simp only [memcpyAt]
        by_cases hi1 : i < holeStart
        · have hcv : ¬(holeStart ≤ i ∧ i < maxOff ∧
              inRanges (r :: rest) i = false) := by
            rintro ⟨h1, -, -⟩; omega
          rw [if_neg (by rintro ⟨h1, -, -⟩; omega),
            if_neg (by rintro ⟨h1, -⟩; omega), if_neg hcv]
        · by_cases hi2 : i < min maxOff r.start
          · have hnr : inRanges (r :: rest) i = false := by
              rw [inRanges_eq_false_iff]
              intro s hs
              rcases List.mem_cons.mp hs with h | h
              · subst h; omega
              · have := hrest_gt s h; omega
            rw [if_neg (by rintro ⟨h1, -, -⟩; omega),
              if_pos ⟨by omega, by omega⟩,
              if_pos ⟨by omega, by omega, hnr⟩]
          · by_cases hi3 : i < maxOff
            · by_cases hi4 : i < r.end_
              · have hcv : inRanges (r :: rest) i = true := by
                  rw [inRanges_eq_true_iff]
                  exact ⟨r, List.mem_cons_self _ _, by omega, hi4⟩
                rw [if_neg (by rintro ⟨h1, -, -⟩; omega),
                  if_neg (by rintro ⟨-, h2⟩; omega),
                  if_neg (by rintro ⟨-, -, h3⟩; rw [hcv] at h3; cases h3)]
              · cases hi5 : inRanges rest i with
                | false =>
                    have hcv : inRanges (r :: rest) i = false := by
                      rw [inRanges_cons, hi5, Bool.or_false,
                        decide_eq_false_iff_not]
                      omega
                    rw [if_pos ⟨by omega, hi3, rfl⟩,
                      if_pos ⟨by omega, hi3, hcv⟩]
                | true =>
                    have hcv : inRanges (r :: rest) i = true := by
                      rw [inRanges_cons, hi5, Bool.or_true]
                    rw [if_neg (by rintro ⟨-, -, h3⟩; cases h3),
                      if_neg (by rintro ⟨-, h2⟩; omega),
                      if_neg (by rintro ⟨-, -, h3⟩; rw [hcv] at h3; cases h3)]
            · rw [if_neg (by rintro ⟨-, h2, -⟩; omega),
                if_neg (by rintro ⟨-, h2⟩; omega),
                if_neg (by rintro ⟨-, h2, -⟩; omega)]

/-- `dbuf_merge_write_ranges` on a record with a non-empty well-formed
range list: the result keeps the dirty buffer's identity and size, and
within `max_offset` every position covered by a write range keeps the
dirty byte while every uncovered position receives the old buffer's
byte. -/
theorem dbuf_merge_write_ranges_eq (dl : DirtyRecord) (old : ArcBuf)
    (hwf : wfRanges dl.writeRanges) (hne : dl.writeRanges ≠ []) :
    (dbuf_merge_write_ranges dl old).bid = dl.drData.bid ∧
    (dbuf_merge_write_ranges dl old).size = dl.drData.size ∧
    ∀ i, i < min old.size dl.drData.size →
      (dbuf_merge_write_ranges dl old).data i =
        if inRanges dl.writeRanges i then dl.drData.data i
        else old.data i := by
  obtain ⟨hchain, hall⟩ := hwf
  cases hrs : dl.writeRanges with
  | nil => exact absurd hrs hne
  | cons r rest =>
      rw [hrs] at hchain hall
      have hr : r.start < r.end_ := (hall r (List.mem_cons_self _ _)).1
      have hrsz : r.size = r.end_ - r.start :=
        (hall r (List.mem_cons_self _ _)).2
      have hrest_lt : ∀ s ∈ rest, s.start < s.end_ :=
        fun s hs => (hall s (List.mem_cons_of_mem _ hs)).1
      have hrest_gt : ∀ s ∈ rest, r.end_ < s.start :=
        ranges_lt_of_chain r rest hchain hrest_lt
      unfold dbuf_merge_write_ranges
      rw [hrs]
      refine ⟨rfl, rfl, ?_⟩
      intro i hi
      show (if r.start = 0 then
              fillHoles old.data dl.drData.data
                (min old.size dl.drData.size) r.size rest
            else
              fillHoles old.data dl.drData.data
                (min old.size dl.drData.size) 0 (r :: rest)) i = _
      by_cases h0 : r.start = 0
      · rw [if_pos h0]
        have hsz0 : r.size = r.end_ := by omega
        rw [hsz0, fillHoles_eq old.data (min old.size dl.drData.size) rest
          dl.drData.data r.end_ (List.chain'_cons'.mp hchain).2 hrest_lt
          (fun s hs => Nat.le_of_lt (hrest_gt s hs)) i]
        by_cases hir : i < r.end_
        · have hcv : inRanges (r :: rest) i = true := by
            rw [inRanges_eq_true_iff]
            exact ⟨r, List.mem_cons_self _ _, by omega, hir⟩
          rw [if_neg (by rintro ⟨h1, -, -⟩; omega), hcv, if_pos rfl]
        · cases hrest : inRanges rest i with
          | false =>
              have hcv : inRanges (r :: rest) i = false := by
                rw [inRanges_cons, hrest, Bool.or_false,
                  decide_eq_false_iff_not]
                omega
              rw [if_pos ⟨by omega, hi, rfl⟩, hcv]
              rw [if_neg (by intro h; cases h)]
          | true =>
              have hcv : inRanges (r :: rest) i = true := by
                rw [inRanges_cons, hrest, Bool.or_true]
              rw [if_neg (by rintro ⟨-, -, h3⟩; cases h3),
                hcv, if_pos rfl]
      · rw [if_neg h0]
        rw [fillHoles_eq old.data (min old.size dl.drData.size) (r :: rest)
          dl.drData.data 0 hchain
          (fun s hs => (hall s hs).1) (fun s _ => Nat.zero_le _) i]
        cases hcov : inRanges (r :: rest) i with
        | false =>
            rw [if_pos ⟨Nat.zero_le _, hi, rfl⟩,
              if_neg (by intro h; cases h)]
        | true =>
            rw [if_neg (by rintro ⟨-, -, h3⟩; cases h3),
              if_pos rfl]

/-- `dbuf_merge_write_ranges` on a record with an empty range list
returns its buffer untouched. -/
theorem dbuf_merge_write_ranges_empty (dl : DirtyRecord) (old : ArcBuf)
    (h : dl.writeRanges = []) : dbuf_merge_write_ranges dl old = dl.drData := by
  unfold dbuf_merge_write_ranges
  rw [h]

/-- Full specification of the oldest-to-newest resolve walk
(`dbuf_resolve_ranges` body): lengths and TXGs are preserved, every
range list is cleared, buffer sizes are preserved, a record with no
outstanding ranges keeps its bytes, and a record with outstanding ranges
keeps its bytes exactly on the covered positions while every uncovered
position (below the block size) receives the byte of the older buffer —
the read result for the oldest record, the previous record's resolved
buffer otherwise. -/
theorem resolveGo_spec (rs : List DirtyRecord) :
    ∀ (b : ArcBuf),
      (∀ dr ∈ rs, wfRanges dr.writeRanges) →
      (∀ dr ∈ rs, dr.drData.size = b.size) →
      (resolveGo b rs).length = rs.length ∧
      (∀ dr ∈ resolveGo b rs, dr.writeRanges = []) ∧
      (∀ dr ∈ resolveGo b rs, dr.drData.size = b.size) ∧
      (∀ k, k < rs.length →
        ((resolveGo b rs).getD k defaultDR).txg =
          (rs.getD k defaultDR).txg ∧
        ((rs.getD k defaultDR).writeRanges = [] →
          ∀ i, ((resolveGo b rs).getD k defaultDR).drData.data i =
            (rs.getD k defaultDR).drData.data i) ∧
        ((rs.getD k defaultDR).writeRanges ≠ [] →
          ∀ i, i < b.size →
            ((resolveGo b rs).getD k defaultDR).drData.data i =
              if inRanges (rs.getD k defaultDR).writeRanges i then
                (rs.getD k defaultDR).drData.data i
              else
                (if k = 0 then b.data i
                 else ((resolveGo b rs).getD (k - 1)
                    defaultDR).drData.data i))) := by
  induction rs with
  | nil => intro b _ _; simp [resolveGo]
  | cons dr rest ih =>
      intro b hwf hsz
      have hdr_wf : wfRanges dr.writeRanges := hwf dr (List.mem_cons_self _ _)
      have hdr_sz : dr.drData.size = b.size := hsz dr (List.mem_cons_self _ _)
      set merged := dbuf_merge_write_ranges dr b with hmerged
      have hmin : min b.size dr.drData.size = b.size := by
        rw [hdr_sz, Nat.min_self]
      have hmerged_sz : merged.size = b.size := by
        cases hdre : dr.writeRanges with
        | nil => rw [hmerged, dbuf_merge_write_ranges_empty dr b hdre, hdr_sz]
        | cons r rest' =>
            rw [hmerged,
              (dbuf_merge_write_ranges_eq dr b hdr_wf (by rw [hdre]; simp)).2.1,
              hdr_sz]
      have hrest_wf : ∀ r ∈ rest, wfRanges r.writeRanges :=
        fun r hr => hwf r (List.mem_cons_of_mem _ hr)
      have hrest_sz : ∀ r ∈ rest, r.drData.size = merged.size := by
        intro r hr; rw [hmerged_sz]; exact hsz r (List.mem_cons_of_mem _ hr)
      obtain ⟨ihlen, ihranges, ihsz, ihchar⟩ := ih merged hrest_wf hrest_sz
      have hgo : resolveGo b (dr :: rest) =
          { dr with drData := merged, writeRanges := [] } ::
            resolveGo merged rest := rfl
      refine ⟨?_, ?_, ?_, ?_⟩
      · rw [hgo]; simp [ihlen]
      · rw [hgo]
        intro x hx
        rcases List.mem_cons.mp hx with h | h
        · rw [h]
        · exact ihranges x h
      · rw [hgo]
        intro x hx
        rcases List.mem_cons.mp hx with h | h
        · rw [h]; exact hmerged_sz
        · rw [← hmerged_sz] at *; exact ihsz x h
      · intro k hk
        rw [hgo]
        match k with
        | 0 =>
            refine ⟨rfl, ?_, ?_⟩
            · intro hempty i
              simp only [List.getD_cons_zero]
              rw [hmerged, dbuf_merge_write_ranges_empty dr b hempty]
            · intro hne i hi
              simp only [List.getD_cons_zero, if_pos rfl]
              have := (dbuf_merge_write_ranges_eq dr b hdr_wf hne).2.2 i
                (by rw [hmin]; exact hi)
              rw [hmerged]
              exact this
        | Nat.succ k' =>
            have hk' : k' < rest.length := by
              simp only [List.length_cons] at hk; omega
            obtain ⟨ctxg, cempty, cchar⟩ := ihchar k' hk'
            refine ⟨?_, ?_, ?_⟩
            · simpa using ctxg
            · intro hempty i
              simp only [List.getD_cons_succ]
              exact cempty (by simpa using hempty) i
            · intro hne i hi
              simp only [List.getD_cons_succ] at hne ⊢
              have hchar := cchar hne i (by rw [hmerged_sz]; exact hi)
              rw [if_neg (Nat.succ_ne_zero k')]
              simp only [Nat.succ_sub_one]
              cases k' with
              | zero =>
                  rw [if_pos rfl] at hchar
                  simpa using hchar
              | succ k'' =>
                  rw [if_neg (Nat.succ_ne_zero k'')] at hchar
                  simp only [Nat.succ_sub_one] at hchar
                  simpa using hchar

theorem clearOverrideOldest_concat (a : DirtyRecord) :
    ∀ (l : List DirtyRecord),
      clearOverrideOldest (l ++ [a]) =
        l ++ [{ a with overrideZio := none }] := by
  intro l
  induction l with
  | nil => rfl
  | cons x xs ih =>
      cases xs with
      | nil => rfl
      | cons y ys =>
          show x :: clearOverrideOldest ((y :: ys) ++ [a]) = _
          rw [ih]
          rfl

/-- Reversing `clearOverrideOldest` of a reversed newest-first list:
only the head (the oldest record) of the oldest-first view loses its
override zio. -/
theorem reverse_clearOverride (a : DirtyRecord) (t : List DirtyRecord) :
    (clearOverrideOldest ((a :: t).reverse)).reverse =
      { a with overrideZio := none } :: t := by
  rw [List.reverse_cons, clearOverrideOldest_concat, List.reverse_append,
    List.reverse_reverse]
  rfl

/-- Full specification of `dbuf_read_complete` in the resolving case: a
level-0 dbuf whose oldest dirty record has outstanding write ranges,
completing a non-hole read.  Record count and TXGs are preserved, every
record's range list is cleared, each record's buffer is rewritten by the
inverse merge (covered positions keep the record's bytes, uncovered
positions receive the older buffer's bytes), the deferred syncer zio and
override zio of the oldest record are issued, and a dbuf that was in
plain `DB_READ` ends CACHED. -/
theorem readCompleteSpec (db : Dbuf) (buf : ArcBuf)
    (hlvl : db.level = 0)
    (hwf : ∀ dr ∈ db.dirtyRecords, wfRanges dr.writeRanges)
    (hsz : ∀ dr ∈ db.dirtyRecords, dr.drData.size = buf.size)
    (hold : oldestRanges db ≠ []) :
    (dbuf_read_complete db buf false).1.dirtyRecords.length =
      db.dirtyRecords.length ∧
    (∀ dr ∈ (dbuf_read_complete db buf false).1.dirtyRecords,
      dr.writeRanges = []) ∧
    (∀ k, k < db.dirtyRecords.length →
      (((dbuf_read_complete db buf false).1.dirtyRecords.reverse).getD k
          defaultDR).txg =
        ((db.dirtyRecords.reverse).getD k defaultDR).txg ∧
      (((db.dirtyRecords.reverse).getD k defaultDR).writeRanges = [] →
        ∀ i, (((dbuf_read_complete db buf false).1.dirtyRecords.reverse).getD
            k defaultDR).drData.data i =
          ((db.dirtyRecords.reverse).getD k defaultDR).drData.data i) ∧
      (((db.dirtyRecords.reverse).getD k defaultDR).writeRanges ≠ [] →
        ∀ i, i < buf.size →
          (((dbuf_read_complete db buf false).1.dirtyRecords.reverse).getD k
              defaultDR).drData.data i =
            if inRanges ((db.dirtyRecords.reverse).getD k
                defaultDR).writeRanges i then
              ((db.dirtyRecords.reverse).getD k defaultDR).drData.data i
            else if k = 0 then buf.data i
            else (((dbuf_read_complete db buf
                false).1.dirtyRecords.reverse).getD (k - 1)
                defaultDR).drData.data i)) ∧
    (dbuf_read_complete db buf false).2 =
      (oldestDrZio db).toList ++ (oldestOverrideZio db).toList ∧
    (db.state = stREAD →
      (dbuf_read_complete db buf false).1.state = stCACHED) := by
  have hne : db.dirtyRecords ≠ [] := by
    intro h
    apply hold
    unfold oldestRanges
    rw [h]
    rfl
  have hcond : db.level = 0 ∧ db.dirtyRecords.isEmpty = false ∧
      (false : Bool) = false ∧ oldestRanges db ≠ [] :=
    ⟨hlvl, List.isEmpty_eq_false.mpr hne, rfl, hold⟩
  have hrecs_eq : (dbuf_read_complete db buf false).1.dirtyRecords =
      clearOverrideOldest ((resolveGo buf db.dirtyRecords.reverse).reverse) := by
    unfold dbuf_read_complete
    rw [if_pos hcond]
    dsimp only
    split
    · rfl
    · split <;> rfl
  have hiss : (dbuf_read_complete db buf false).2 =
      (oldestDrZio db).toList ++ (oldestOverrideZio db).toList := by
    unfold dbuf_read_complete
    rw [if_pos hcond]
  have hstate : db.state = stREAD →
      (dbuf_read_complete db buf false).1.state = stCACHED := by
    intro hs
    unfold dbuf_read_complete
    rw [if_pos hcond]
    dsimp only
    rw [if_pos (show (dbuf_resolve_ranges db buf).state = stREAD from hs)]
  have hwfO : ∀ dr ∈ db.dirtyRecords.reverse, wfRanges dr.writeRanges :=
    fun dr hdr => hwf dr (List.mem_reverse.mp hdr)
  have hszO : ∀ dr ∈ db.dirtyRecords.reverse, dr.drData.size = buf.size :=
    fun dr hdr => hsz dr (List.mem_reverse.mp hdr)
  obtain ⟨slen, sranges, _, schar⟩ :=
    resolveGo_spec db.dirtyRecords.reverse buf hwfO hszO
  have hns_ne : resolveGo buf db.dirtyRecords.reverse ≠ [] := by
    intro h
    have := slen
    rw [h] at this
    exact hne (List.reverse_eq_nil_iff.mp
      (List.length_eq_zero.mp this.symm))
  obtain ⟨n0, ntail, hns_cons⟩ :
      ∃ a t, resolveGo buf db.dirtyRecords.reverse = a :: t := by
    cases hc : resolveGo buf db.dirtyRecords.reverse with
    | nil => exact absurd hc hns_ne
    | cons a t => exact ⟨a, t, rfl⟩
  have hR : (clearOverrideOldest
      ((resolveGo buf db.dirtyRecords.reverse).reverse)).reverse =
      { n0 with overrideZio := none } :: ntail := by
    rw [hns_cons]
    exact reverse_clearOverride n0 ntail
  have hRk : ∀ j,
      ((clearOverrideOldest
          ((resolveGo buf db.dirtyRecords.reverse).reverse)).reverse.getD j
        defaultDR).txg =
        ((resolveGo buf db.dirtyRecords.reverse).getD j defaultDR).txg ∧
      ((clearOverrideOldest
          ((resolveGo buf db.dirtyRecords.reverse).reverse)).reverse.getD j
        defaultDR).drData =
        ((resolveGo buf db.dirtyRecords.reverse).getD j defaultDR).drData ∧
      ((clearOverrideOldest
          ((resolveGo buf db.dirtyRecords.reverse).reverse)).reverse.getD j
        defaultDR).writeRanges =
        ((resolveGo buf db.dirtyRecords.reverse).getD j
          defaultDR).writeRanges := by
    intro j
    rw [hR, hns_cons]
    cases j with
    | zero => exact ⟨rfl, rfl, rfl⟩
    | succ j' => simp [List.getD_cons_succ]
  refine ⟨?_, ?_, ?_, hiss, hstate⟩
  · rw [hrecs_eq, ← List.length_reverse (clearOverrideOldest _), hR,
      List.length_cons]
    rw [hns_cons] at slen
    rw [List.length_cons] at slen
    rw [← List.length_reverse db.dirtyRecords, ← slen]
  · rw [hrecs_eq]
    intro dr hdr
    have hdr' : dr ∈ (clearOverrideOldest
        ((resolveGo buf db.dirtyRecords.reverse).reverse)).reverse :=
      List.mem_reverse.mpr hdr
    rw [hR] at hdr'
    rcases List.mem_cons.mp hdr' with h | h
    · rw [h]
      show n0.writeRanges = []
      exact sranges n0 (hns_cons ▸ List.mem_cons_self _ _)
    · exact sranges dr (hns_cons ▸ List.mem_cons_of_mem _ h)
  · intro k hk
    have hkO : k < (db.dirtyRecords.reverse).length := by
      rw [List.length_reverse]; exact hk
    obtain ⟨ctxg, cempty, cchar⟩ := schar k hkO
    rw [hrecs_eq]
    refine ⟨?_, ?_, ?_⟩
    · rw [(hRk k).1]; exact ctxg
    · intro hempty i
      rw [(hRk k).2.1]
      exact cempty hempty i
    · intro hnon i hi
      rw [(hRk k).2.1, (hRk (k - 1)).2.1]
      exact cchar hnon i hi

/-! ## Specification of the range accumulator -/

theorem wfRanges_nil : wfRanges ([] : List Range) :=
  ⟨List.chain'_nil, by simp⟩

/-- Specification of the `dbuf_dirty_record_add_range` accumulator loop:
if the incoming range is well formed and the list is well formed, then
the untouched prefix, the accumulated range, and the untouched suffix
again form a well-formed list; the positions it covers are exactly those
covered before plus the new interval; the accumulated range starts at
the incoming range's start or at the start of a merged entry; and the
prefix/suffix elements are original entries, the prefix ones ending
strictly before the accumulated range starts. -/
theorem addLoop_spec (rs : List Range) :
    ∀ (r : Range) (p : List Range) (m : Range) (s : List Range),
      addLoop r rs = (p, m, s) →
      wfRanges rs →
      r.start < r.end_ →
      r.size = r.end_ - r.start →
      wfRanges (p ++ m :: s) ∧
      (∀ i, inRanges (p ++ m :: s) i = true ↔
        (inRanges rs i = true ∨ (r.start ≤ i ∧ i < r.end_))) ∧
      (m.start = r.start ∨ ∃ old ∈ rs, m.start = old.start) ∧
      (∀ x ∈ p, x ∈ rs) ∧
      (∀ x ∈ s, x ∈ rs) ∧
      (∀ x ∈ p, x.end_ < m.start) := by
  induction rs with
  | nil =>
      intro r p m s heq hwf hlt hsz
      simp only [addLoop, Prod.mk.injEq] at heq
      obtain ⟨hp, hm, hs⟩ := heq
      subst hp; subst hm; subst hs
      refine ⟨?_, ?_, Or.inl rfl, by simp, by simp, by simp⟩
      · refine ⟨?_, ?_⟩
        · simp
        · intro x hx
          simp only [List.nil_append, List.mem_singleton] at hx
          subst hx
          exact ⟨hlt, hsz⟩
      · intro i
        simp only [List.nil_append, inRanges_eq_true_iff, List.mem_singleton,
          inRanges_nil]
        constructor
        · rintro ⟨x, hx, hxi⟩; subst hx; exact Or.inr hxi
        · rintro (h | h)
          · exact Bool.noConfusion h
          · exact ⟨_, rfl, h⟩
  | cons old rest ih =>
      intro r p m s heq hwf hlt hsz
      have hwf_rest : wfRanges rest :=
        ⟨(List.chain'_cons'.mp hwf.1).2,
         fun x hx => hwf.2 x (List.mem_cons_of_mem _ hx)⟩
      have hold_lt : old.start < old.end_ :=
        (hwf.2 old (List.mem_cons_self _ _)).1
      have hrest_gt : ∀ x ∈ rest, old.end_ < x.start :=
        ranges_lt_of_chain old rest hwf.1
          (fun x hx => (hwf.2 x (List.mem_cons_of_mem _ hx)).1)
      by_cases hle : old.start ≤ r.end_
      · by_cases hover : r.start ≤ old.end_ ∧ r.end_ ≥ old.start
        · -- merge `old` into the accumulated range and continue
          have hstep : addLoop r (old :: rest) =
              addLoop (mergedRange r old) rest := by
            conv_lhs => rw [addLoop]
            rw [if_pos hle, if_pos hover]
          have heq' : addLoop (mergedRange r old) rest = (p, m, s) := by
            rw [← hstep]
            exact heq
          obtain ⟨cwf, ccov, cstart, cp, cs, cpend⟩ :=
            ih _ p m s heq' hwf_rest
              (by show min r.start old.start < max r.end_ old.end_; omega) rfl
          refine ⟨cwf, ?_, ?_, fun x hx => List.mem_cons_of_mem _ (cp x hx),
            fun x hx => List.mem_cons_of_mem _ (cs x hx), cpend⟩
          · intro i
            rw [ccov i, inRanges_cons]
            simp only [Bool.or_eq_true, decide_eq_true_eq]
            constructor
            · rintro (h | h)
              · exact Or.inl (Or.inr h)
              · rcases h with ⟨h1, h2⟩
                have h1' : min r.start old.start ≤ i := h1
                have h2' : i < max r.end_ old.end_ := h2
                by_cases hro : r.start ≤ i ∧ i < r.end_
                · exact Or.inr hro
                · exact Or.inl (Or.inl (by omega))
            · rintro ((h | h) | h)
              · refine Or.inr ?_
                show min r.start old.start ≤ i ∧ i < max r.end_ old.end_
                omega
              · exact Or.inl h
              · refine Or.inr ?_
                show min r.start old.start ≤ i ∧ i < max r.end_ old.end_
                omega
          · rcases cstart with h | ⟨x, hx, hxs⟩
            · rcases Nat.le_total r.start old.start with hmin | hmin
              · left
                rw [h]
                show min r.start old.start = r.start
                omega
              · right
                refine ⟨old, List.mem_cons_self _ _, ?_⟩
                rw [h]
                show min r.start old.start = old.start
                omega
            · exact Or.inr ⟨x, List.mem_cons_of_mem _ hx, hxs⟩
        · -- `old` stays in place before the insertion point
          have hold_before : old.end_ < r.start := by
            rcases Nat.lt_or_ge old.end_ r.start with h | h
            · exact h
            · exact absurd ⟨h, hle⟩ hover
          rcases hAL : addLoop r rest with ⟨p', m', s'⟩
          have hstep : addLoop r (old :: rest) = (old :: p', m', s') := by
            conv_lhs => rw [addLoop]
            rw [if_pos hle, if_neg hover, hAL]
          have heq2 : (old :: p', m', s') = (p, m, s) := by
            rw [← hstep]
            exact heq
          simp only [Prod.mk.injEq] at heq2
          obtain ⟨hp, hm, hs⟩ := heq2
          subst hp; subst hm; subst hs
          obtain ⟨cwf, ccov, cstart, cp, cs, cpend⟩ :=
            ih r p' m' s' hAL hwf_rest hlt hsz
          have hm'start : old.end_ < m'.start := by
            rcases cstart with h | ⟨x, hx, hxs⟩
            · omega
            · rw [hxs]; exact hrest_gt x hx
          have headFact : ∀ h ∈ (p' ++ m' :: s').head?,
              old.end_ < h.start := by
            cases p' with
            | nil =>
                intro h hh
                simp only [List.nil_append, List.head?_cons,
                  Option.mem_def, Option.some.injEq] at hh
                subst hh
                exact hm'start
            | cons a p'' =>
                intro h hh
                simp only [List.cons_append, List.head?_cons,
                  Option.mem_def, Option.some.injEq] at hh
                subst hh
                exact hrest_gt a (cp a (List.mem_cons_self _ _))
          refine ⟨?_, ?_, ?_, ?_, fun x hx => List.mem_cons_of_mem _ (cs x hx),
            ?_⟩
          · refine ⟨List.chain'_cons'.mpr ⟨headFact, cwf.1⟩, ?_⟩
            intro x hx
            rcases List.mem_cons.mp hx with h | h
            · rw [h]; exact hwf.2 old (List.mem_cons_self _ _)
            · exact cwf.2 x h
          · intro i
            show inRanges (old :: (p' ++ m' :: s')) i = true ↔ _
            rw [inRanges_cons]
            simp only [Bool.or_eq_true, decide_eq_true_eq, inRanges_cons]
            rw [ccov i]
            tauto
          · rcases cstart with h | ⟨x, hx, hxs⟩
            · exact Or.inl h
            · exact Or.inr ⟨x, List.mem_cons_of_mem _ hx, hxs⟩
          · intro x hx
            rcases List.mem_cons.mp hx with h | h
            · rw [h]; exact List.mem_cons_self _ _
            · exact List.mem_cons_of_mem _ (cp x h)
          · intro x hx
            rcases List.mem_cons.mp hx with h | h
            · rw [h]; exact hm'start
            · exact cpend x h
      · -- the loop stops; insert before `old`
        have hgt : r.end_ < old.start := by omega
        simp only [addLoop, if_neg hle, Prod.mk.injEq] at heq
        obtain ⟨hp, hm, hs⟩ := heq
        subst hp; subst hm; subst hs
        refine ⟨?_, ?_, Or.inl rfl, by simp, fun x hx => hx, by simp⟩
        · refine ⟨?_, ?_⟩
          · rw [List.nil_append]
            have hhead : ∀ h ∈ (old :: rest).head?, r.end_ < h.start := by
              intro h hh
              simp only [List.head?_cons, Option.mem_def,
                Option.some.injEq] at hh
              subst hh
              exact hgt
            exact List.chain'_cons'.mpr ⟨hhead, hwf.1⟩
          · intro x hx
            rw [List.nil_append] at hx
            rcases List.mem_cons.mp hx with h | h
            · subst h; exact ⟨hlt, hsz⟩
            · exact hwf.2 x h
        · intro i
          simp only [List.nil_append, inRanges_cons, Bool.or_eq_true,
            decide_eq_true_eq]
          tauto

/-! ## Facts about the dirty path -/

theorem addRange_full (rs : List Range) (n : Nat) : addRange rs n 0 n = [] := by
  unfold addRange
  rw [if_pos ⟨rfl, rfl⟩]

theorem addRangeUpd_txg (dbSize offset size txg : Nat) (r : DirtyRecord) :
    (addRangeUpd dbSize offset size txg r).txg = r.txg := by
  unfold addRangeUpd
  split <;> rfl

theorem rangesNowEmpty_true (l : List DirtyRecord) (txg : Nat)
    (h1 : ∃ r ∈ l, r.txg = txg)
    (h2 : ∀ r ∈ l, r.txg = txg → r.writeRanges = []) :
    rangesNowEmpty l txg = true := by
  obtain ⟨r0, hr0, hr0t⟩ := h1
  have hsome : (l.find? (fun r => r.txg == txg)).isSome := by
    rw [List.find?_isSome]
    exact ⟨r0, hr0, by simp [hr0t]⟩
  obtain ⟨rf, hrf⟩ := Option.isSome_iff_exists.mp hsome
  unfold rangesNowEmpty
  rw [hrf]
  show rf.writeRanges.isEmpty = true
  rw [h2 rf (List.mem_of_find?_eq_some hrf)
    (by simpa using List.find?_some hrf)]
  rfl

/-- Registering a full-block range against a READ/PARTIAL dbuf that has
a record for the TXG advances the state to `DB_FILL` and leaves that
record with no write ranges. -/
theorem add_range_db_full (db : Dbuf) (txg : Nat)
    (hmem : ∃ r ∈ db.dirtyRecords, r.txg = txg)
    (hstate : db.state.readB = true ∨ db.state.partB = true) :
    (dbuf_dirty_record_add_range_db db txg 0 db.size).state = stFILL ∧
    ∀ r ∈ (dbuf_dirty_record_add_range_db db txg 0 db.size).dirtyRecords,
      r.txg = txg → r.writeRanges = [] := by
  have hmap : ∀ r ∈ db.dirtyRecords.map (addRangeUpd db.size 0 db.size txg),
      r.txg = txg → r.writeRanges = [] := by
    intro r hr ht
    obtain ⟨a, ha, haf⟩ := List.mem_map.mp hr
    by_cases hat : a.txg = txg
    · rw [← haf]
      unfold addRangeUpd
      rw [if_pos hat]
      exact addRange_full _ _
    · exfalso
      apply hat
      rw [← haf] at ht
      unfold addRangeUpd at ht
      rw [if_neg hat] at ht
      exact ht
  have hmem' : ∃ r ∈ db.dirtyRecords.map (addRangeUpd db.size 0 db.size txg),
      r.txg = txg := by
    obtain ⟨r0, hr0, hr0t⟩ := hmem
    exact ⟨addRangeUpd db.size 0 db.size txg r0, List.mem_map_of_mem _ hr0,
      by rw [addRangeUpd_txg]; exact hr0t⟩
  have hempty := rangesNowEmpty_true _ txg hmem' hmap
  have hcond : ((db.state.readB || db.state.partB) &&
      rangesNowEmpty (db.dirtyRecords.map (addRangeUpd db.size 0 db.size txg))
        txg) = true := by
    rw [hempty, Bool.and_true]
    rcases hstate with h | h
    · rw [h, Bool.true_or]
    · rw [h, Bool.or_true]
  unfold dbuf_dirty_record_add_range_db
  dsimp only
  rw [if_pos hcond]
  exact ⟨rfl, hmap⟩

/-- Variant of `add_range_db_full` stated against an abstract size that
equals the dbuf's block size. -/
theorem add_range_db_full' (db : Dbuf) (txg sz : Nat) (hsz : sz = db.size)
    (hmem : ∃ r ∈ db.dirtyRecords, r.txg = txg)
    (hstate : db.state.readB = true ∨ db.state.partB = true) :
    (dbuf_dirty_record_add_range_db db txg 0 sz).state = stFILL ∧
    ∀ r ∈ (dbuf_dirty_record_add_range_db db txg 0 sz).dirtyRecords,
      r.txg = txg → r.writeRanges = [] := by
  subst hsz
  exact add_range_db_full db txg hmem hstate

theorem dbuf_dirty_set_data_state (d : Dbuf) :
    (dbuf_dirty_set_data d).state = d.state := rfl

theorem dbuf_dirty_set_data_size (d : Dbuf) :
    (dbuf_dirty_set_data d).size = d.size := rfl

theorem dbuf_dirty_set_data_records (d : Dbuf) :
    (dbuf_dirty_set_data d).dirtyRecords = d.dirtyRecords := rfl

theorem update_leaf_state (d : Dbuf) (txg : Nat) :
    (dbuf_dirty_record_update_leaf d txg).state = d.state := by
  unfold dbuf_dirty_record_update_leaf
  split <;> rfl

theorem update_leaf_size (d : Dbuf) (txg : Nat) :
    (dbuf_dirty_record_update_leaf d txg).size = d.size := by
  unfold dbuf_dirty_record_update_leaf
  split <;> rfl

theorem create_leaf_state (d : Dbuf) (txg : Nat) :
    (dbuf_dirty_record_create_leaf d txg).1.state = d.state := by
  unfold dbuf_dirty_record_create_leaf
  dsimp only
  split <;> rfl

theorem create_leaf_size (d : Dbuf) (txg : Nat) :
    (dbuf_dirty_record_create_leaf d txg).1.size = d.size := by
  unfold dbuf_dirty_record_create_leaf
  dsimp only
  split <;> rfl

/-- The freshly created record for the TXG is in the list after
registration. -/
theorem create_leaf_mem (d : Dbuf) (txg : Nat) :
    ∃ r ∈ (dbuf_dirty_record_create_leaf d txg).1.dirtyRecords,
      r.txg = txg := by
  unfold dbuf_dirty_record_create_leaf
  dsimp only
  split <;>
    exact ⟨_, List.mem_append_right _ (List.mem_cons_self _ _), rfl⟩

theorem update_leaf_mem (d : Dbuf) (txg : Nat)
    (h : ∃ r ∈ d.dirtyRecords, r.txg = txg) :
    ∃ r ∈ (dbuf_dirty_record_update_leaf d txg).dirtyRecords,
      r.txg = txg := by
  obtain ⟨r0, hr0, hr0t⟩ := h
  unfold dbuf_dirty_record_update_leaf
  cases hb : d.buf with
  | none => exact ⟨r0, hr0, hr0t⟩
  | some front =>
      refine ⟨if r0.txg = txg then { r0 with drData := front } else r0,
        List.mem_map_of_mem _ hr0, ?_⟩
      split <;> simp [hr0t]

/-- A positive `txgAlreadyDirty` walk means a record for the TXG is on
the list. -/
theorem txgAlreadyDirty_mem (rs : List DirtyRecord) (txg : Nat)
    (h : txgAlreadyDirty rs txg = true) :
    ∃ r ∈ rs, r.txg = txg := by
  unfold txgAlreadyDirty at h
  cases hh : (rs.dropWhile (fun r => decide (txg < r.txg))).head? with
  | none => rw [hh] at h; cases h
  | some a =>
      rw [hh] at h
      have hmem : a ∈ rs.dropWhile (fun r => decide (txg < r.txg)) :=
        List.mem_of_mem_head? (by rw [hh]; rfl)
      exact ⟨a, (List.dropWhile_sublist _).subset hmem, of_decide_eq_true h⟩

/-! ## Sample values used to instantiate theorems -/

/-- A plain level-0 dbuf with nothing cached and nothing dirty. -/
def sampleDb : Dbuf :=
  { level := 0, objMetaDnode := false, blkid := BlkId.normal 7, size := 16,
    state := stUNCACHED, buf := none, dirtyRecords := [], dirtycnt := 0,
    dataPendingTxg := none, freedInFlight := false, user := none,
    nextBid := 0 }

/-- The oldest dirty record is the head of the reversed (oldest-first)
list. -/
theorem oldestRanges_eq_reverse_head (db : Dbuf) (h : db.dirtyRecords ≠ []) :
    oldestRanges db =
      ((db.dirtyRecords.reverse).getD 0 defaultDR).writeRanges := by
  unfold oldestRanges
  cases hrev : db.dirtyRecords.reverse with
  | nil => exact absurd (List.reverse_eq_nil_iff.mp hrev) h
  | cons a t =>
      have hlast : db.dirtyRecords.getLast? = some a := by
        rw [← List.head?_reverse, hrev]
        rfl
      rw [hlast]
      rfl

/-- Dirty record buffer for the oldest record of the C1 witness. -/
def c1BufA : ArcBuf := { bid := 10, data := fun i => 100 + i, size := 8 }

/-- Dirty record buffer for the newest record of the C1 witness. -/
def c1BufB : ArcBuf := { bid := 11, data := fun i => 200 + i, size := 8 }

/-- Read-result buffer of the C1 witness. -/
def c1Read : ArcBuf := { bid := 12, data := fun _ => 7, size := 8 }

/-- A dbuf with a read in flight and two dirty records carrying write
ranges, the oldest with a stashed syncer zio and an override zio. -/
def c1Db : Dbuf :=
  { sampleDb with
      size := 8, state := stREAD, dirtycnt := 2,
      dirtyRecords :=
        [{ txg := 8, drData := c1BufB,
           writeRanges := [{ start := 4, size := 2, end_ := 6 }],
           drZio := none, overrideZio := none },
         { txg := 7, drData := c1BufA,
           writeRanges := [{ start := 0, size := 3, end_ := 3 }],
           drZio := some 42, overrideZio := some 99 }] }

/-! ## Claims -/

/-- C1: when a read completes on a level-0 dbuf whose oldest dirty
record has outstanding write ranges, the resolve walks the dirty records
oldest to newest and rewrites each record's buffer by the inverse merge
— positions covered by that record's write ranges keep the record's
bytes, positions not covered receive the older buffer's bytes (the read
result for the oldest record, the previous record's resolved buffer for
the others) — clearing every record's range list, and the deferred write
I/O of the oldest dirty record (the stashed syncer zio and the override
zio) is issued. -/
theorem claim_C1_read_resolve (db : Dbuf) (buf : ArcBuf)
    (hlvl : db.level = 0)
    (hwf : ∀ dr ∈ db.dirtyRecords, wfRanges dr.writeRanges)
    (hsz : ∀ dr ∈ db.dirtyRecords, dr.drData.size = buf.size)
    (hold : oldestRanges db ≠ []) :
    (dbuf_read_complete db buf false).1.dirtyRecords.length =
      db.dirtyRecords.length ∧
    (∀ dr ∈ (dbuf_read_complete db buf false).1.dirtyRecords,
      dr.writeRanges = []) ∧
    (∀ k, k < db.dirtyRecords.length →
      (((dbuf_read_complete db buf false).1.dirtyRecords.reverse).getD k
          defaultDR).txg =
        ((db.dirtyRecords.reverse).getD k defaultDR).txg ∧
      (((db.dirtyRecords.reverse).getD k defaultDR).writeRanges = [] →
        ∀ i, (((dbuf_read_complete db buf false).1.dirtyRecords.reverse).getD
            k defaultDR).drData.data i =
          ((db.dirtyRecords.reverse).getD k defaultDR).drData.data i) ∧
      (((db.dirtyRecords.reverse).getD k defaultDR).writeRanges ≠ [] →
        ∀ i, i < buf.size →
          (((dbuf_read_complete db buf false).1.dirtyRecords.reverse).getD k
              defaultDR).drData.data i =
            if inRanges ((db.dirtyRecords.reverse).getD k
                defaultDR).writeRanges i then
              ((db.dirtyRecords.reverse).getD k defaultDR).drData.data i
            else if k = 0 then buf.data i
            else (((dbuf_read_complete db buf
                false).1.dirtyRecords.reverse).getD (k - 1)
                defaultDR).drData.data i)) ∧
    (dbuf_read_complete db buf false).2 =
      (oldestDrZio db).toList ++ (oldestOverrideZio db).toList := by
  obtain ⟨h1, h2, h3, h4, _⟩ := readCompleteSpec db buf hlvl hwf hsz hold
  exact ⟨h1, h2, h3, h4⟩

/-- Closed instantiation of `claim_C1_read_resolve` at a dbuf with two
dirty records and a concrete read buffer. -/
theorem claim_C1_read_resolve_witness :
    (c1Db.level = 0 ∧
     (∀ dr ∈ c1Db.dirtyRecords, wfRanges dr.writeRanges) ∧
     (∀ dr ∈ c1Db.dirtyRecords, dr.drData.size = c1Read.size) ∧
     oldestRanges c1Db ≠ []) ∧
    ((dbuf_read_complete c1Db c1Read false).1.dirtyRecords.length =
      c1Db.dirtyRecords.length ∧
    (∀ dr ∈ (dbuf_read_complete c1Db c1Read false).1.dirtyRecords,
      dr.writeRanges = []) ∧
    (∀ k, k < c1Db.dirtyRecords.length →
      (((dbuf_read_complete c1Db c1Read false).1.dirtyRecords.reverse).getD k
          defaultDR).txg =
        ((c1Db.dirtyRecords.reverse).getD k defaultDR).txg ∧
      (((c1Db.dirtyRecords.reverse).getD k defaultDR).writeRanges = [] →
        ∀ i, (((dbuf_read_complete c1Db c1Read
            false).1.dirtyRecords.reverse).getD k defaultDR).drData.data i =
          ((c1Db.dirtyRecords.reverse).getD k defaultDR).drData.data i) ∧
      (((c1Db.dirtyRecords.reverse).getD k defaultDR).writeRanges ≠ [] →
        ∀ i, i < c1Read.size →
          (((dbuf_read_complete c1Db c1Read
              false).1.dirtyRecords.reverse).getD k defaultDR).drData.data i =
            if inRanges ((c1Db.dirtyRecords.reverse).getD k
                defaultDR).writeRanges i then
              ((c1Db.dirtyRecords.reverse).getD k defaultDR).drData.data i
            else if k = 0 then c1Read.data i
            else (((dbuf_read_complete c1Db c1Read
                false).1.dirtyRecords.reverse).getD (k - 1)
                defaultDR).drData.data i)) ∧
    (dbuf_read_complete c1Db c1Read false).2 =
      (oldestDrZio c1Db).toList ++ (oldestOverrideZio c1Db).toList) :=
  ⟨⟨by decide, by decide, by decide, by decide⟩,
    claim_C1_read_resolve c1Db c1Read (by decide) (by decide) (by decide)
      (by decide)⟩

/-- C2: `dbuf_dirty_record_truncate_ranges` evaluated at a concrete
dirty record refutes the truncation contract `size = end - start`: for
the single range `{start=5, end=20, size=15}` and `new_size = 25`, the
source's `range->size = range->end - range->size;` produces `size = 5`,
not `end - start = 15` — even though the range does not extend past the
new size, contradicting the function's own comment that the size changes
only in that case. -/
theorem claim_C2_truncate_ranges_bug :
    dbuf_dirty_record_truncate_ranges
        [{ start := 5, size := 15, end_ := 20 }] 25 =
      [{ start := 5, size := 5, end_ := 20 }] ∧
    ({ start := 5, size := 5, end_ := 20 } : Range).size ≠
      ({ start := 5, size := 5, end_ := 20 } : Range).end_ -
        ({ start := 5, size := 5, end_ := 20 } : Range).start := by
  decide

/-- C3 (counterexample): on a dbuf whose current user is `1`,
`dmu_buf_remove_user` with the different user `2` returns the actual
current user `1`, not the null pointer the claim states (the user is
still left unchanged). -/
theorem claim_C3_counterexample :
    (dmu_buf_remove_user { sampleDb with user := some 1 } (some 2)).2 ≠
      none ∧
    (dmu_buf_remove_user { sampleDb with user := some 1 } (some 2)).1.user =
      some 1 := by
  decide

/-- C3 (amended): with no current user, `set_user(x)` succeeds (returns
null) and `get_user` then returns `x`; a subsequent `remove_user(x)`
returns `x` and leaves no user.  When the current user is `y ≠ x`,
`remove_user(x)` returns the current user `y` (not the null pointer) and
leaves the user equal to `y`. -/
theorem claim_C3_user_accessors (db1 db2 : Dbuf) (x y : Nat)
    (h1 : db1.user = none) (h2 : db2.user = some y) (hxy : y ≠ x) :
    (dmu_buf_set_user db1 (some x)).2 = none ∧
    dmu_buf_get_user (dmu_buf_set_user db1 (some x)).1 = some x ∧
    (dmu_buf_remove_user (dmu_buf_set_user db1 (some x)).1 (some x)).2 =
      some x ∧
    (dmu_buf_remove_user (dmu_buf_set_user db1 (some x)).1 (some x)).1.user =
      none ∧
    (dmu_buf_remove_user db2 (some x)).2 = some y ∧
    (dmu_buf_remove_user db2 (some x)).1.user = some y := by
  have hyx : some y ≠ some x := by
    intro h; exact hxy (Option.some.injEq _ _ ▸ h)
  simp [dmu_buf_set_user, dmu_buf_remove_user, dmu_buf_get_user,
    dmu_buf_replace_user, h1, h2, hyx]

/-- Closed instantiation of `claim_C3_user_accessors` at concrete
dbufs and users. -/
theorem claim_C3_user_accessors_witness :
    (sampleDb.user = none ∧
      ({ sampleDb with user := some 1 } : Dbuf).user = some 1 ∧
      (1 : Nat) ≠ 2) ∧
    ((dmu_buf_set_user sampleDb (some 2)).2 = none ∧
      dmu_buf_get_user (dmu_buf_set_user sampleDb (some 2)).1 = some 2 ∧
      (dmu_buf_remove_user (dmu_buf_set_user sampleDb (some 2)).1
          (some 2)).2 = some 2 ∧
      (dmu_buf_remove_user (dmu_buf_set_user sampleDb (some 2)).1
          (some 2)).1.user = none ∧
      (dmu_buf_remove_user { sampleDb with user := some 1 } (some 2)).2 =
        some 1 ∧
      (dmu_buf_remove_user { sampleDb with user := some 1 }
          (some 2)).1.user = some 1) :=
  ⟨⟨by decide, by decide, by decide⟩,
    claim_C3_user_accessors sampleDb { sampleDb with user := some 1 } 2 1
      (by decide) (by decide) (by decide)⟩

/-- C4: when a read fails (nonzero zio error) on a dbuf with dirty
records outstanding, the read buffer is zero-filled and processed as a
successful read — the ranges are resolved against the zeroed buffer (the
oldest record's uncovered positions become zero and its covered
positions keep the client's bytes), every range list is cleared, the
`dirty_writes_lost` counter is incremented by one, and the dbuf ends in
the CACHED state. -/
theorem claim_C4_read_failure_zero_fill (db : Dbuf) (buf : ArcBuf)
    (ioError : Nat)
    (herr : ioError ≠ 0)
    (hcnt : db.dirtycnt > 0)
    (hlvl : db.level = 0)
    (hst : db.state = stREAD)
    (hwf : ∀ dr ∈ db.dirtyRecords, wfRanges dr.writeRanges)
    (hsz : ∀ dr ∈ db.dirtyRecords, dr.drData.size = buf.size)
    (hold : oldestRanges db ≠ []) :
    (dbuf_read_done db buf ioError).2.2 = 1 ∧
    (dbuf_read_done db buf ioError).1.state = stCACHED ∧
    (∀ dr ∈ (dbuf_read_done db buf ioError).1.dirtyRecords,
      dr.writeRanges = []) ∧
    (∀ i, i < buf.size →
      (inRanges (oldestRanges db) i = false →
        (((dbuf_read_done db buf
            ioError).1.dirtyRecords.reverse).getD 0 defaultDR).drData.data i =
          0) ∧
      (inRanges (oldestRanges db) i = true →
        (((dbuf_read_done db buf
            ioError).1.dirtyRecords.reverse).getD 0 defaultDR).drData.data i =
          ((db.dirtyRecords.reverse).getD 0 defaultDR).drData.data i)) := by
  have hne : db.dirtyRecords ≠ [] := by
    intro h
    apply hold
    unfold oldestRanges
    rw [h]
    rfl
  have hrd : dbuf_read_done db buf ioError =
      ((dbuf_read_complete db { buf with data := fun _ => 0 } false).1,
       (dbuf_read_complete db { buf with data := fun _ => 0 } false).2, 1) := by
    unfold dbuf_read_done
    rw [if_neg herr, if_pos hcnt]
  have hszz : ∀ dr ∈ db.dirtyRecords,
      dr.drData.size = ({ buf with data := fun _ => 0 } : ArcBuf).size := hsz
  obtain ⟨_, sranges, schar, _, sstate⟩ :=
    readCompleteSpec db { buf with data := fun _ => 0 } hlvl hwf hszz hold
  have h0lt : 0 < db.dirtyRecords.length := by
    cases hrecs : db.dirtyRecords with
    | nil => exact absurd hrecs hne
    | cons a t => simp
  obtain ⟨_, _, cchar⟩ := schar 0 h0lt
  have holdrw : oldestRanges db =
      ((db.dirtyRecords.reverse).getD 0 defaultDR).writeRanges :=
    oldestRanges_eq_reverse_head db hne
  rw [hrd]
  refine ⟨rfl, sstate hst, sranges, ?_⟩
  intro i hi
  have hchar := cchar (by rw [← holdrw]; exact hold) i hi
  constructor
  · intro hcov
    rw [hchar, if_neg (by rw [holdrw] at hcov; rw [hcov]; intro h; cases h),
      if_pos rfl]
  · intro hcov
    rw [hchar, if_pos (by rw [← holdrw]; exact hcov)]

/-- Dirty record buffer of the C4 witness. -/
def c4Buf : ArcBuf := { bid := 20, data := fun i => 50 + i, size := 8 }

/-- A PARTIAL-then-READ dbuf with one dirty record holding a write
range, used to instantiate the read-failure claim. -/
def c4Db : Dbuf :=
  { sampleDb with
      size := 8, state := stREAD, dirtycnt := 1,
      dirtyRecords :=
        [{ txg := 5, drData := c4Buf,
           writeRanges := [{ start := 2, size := 3, end_ := 5 }],
           drZio := none, overrideZio := none }] }

/-- Read buffer handed to the failing read of the C4 witness. -/
def c4Read : ArcBuf := { bid := 21, data := fun _ => 9, size := 8 }

/-- Closed instantiation of `claim_C4_read_failure_zero_fill` at a
failing read (`EIO = 5`) over a dirty dbuf. -/
theorem claim_C4_read_failure_zero_fill_witness :
    ((5 : Nat) ≠ 0 ∧ c4Db.dirtycnt > 0 ∧ c4Db.level = 0 ∧
      c4Db.state = stREAD ∧
      (∀ dr ∈ c4Db.dirtyRecords, wfRanges dr.writeRanges) ∧
      (∀ dr ∈ c4Db.dirtyRecords, dr.drData.size = c4Read.size) ∧
      oldestRanges c4Db ≠ []) ∧
    ((dbuf_read_done c4Db c4Read 5).2.2 = 1 ∧
      (dbuf_read_done c4Db c4Read 5).1.state = stCACHED ∧
      (∀ dr ∈ (dbuf_read_done c4Db c4Read 5).1.dirtyRecords,
        dr.writeRanges = []) ∧
      (∀ i, i < c4Read.size →
        (inRanges (oldestRanges c4Db) i = false →
          (((dbuf_read_done c4Db c4Read
              5).1.dirtyRecords.reverse).getD 0 defaultDR).drData.data i =
            0) ∧
        (inRanges (oldestRanges c4Db) i = true →
          (((dbuf_read_done c4Db c4Read
              5).1.dirtyRecords.reverse).getD 0 defaultDR).drData.data i =
            ((c4Db.dirtyRecords.reverse).getD 0 defaultDR).drData.data i))) :=
  ⟨⟨by decide, by decide, by decide, by decide, by decide, by decide,
      by decide⟩,
    claim_C4_read_failure_zero_fill c4Db c4Read 5 (by decide) (by decide)
      (by decide) (by decide) (by decide) (by decide) (by decide)⟩

/-- C5: dirtying a leaf dbuf in the UNCACHED state with a full-block
write `[0, block_size)` leaves the dbuf in exactly the FILL state when
`dbuf_dirty_leaf` returns — the PARTIAL bit is not set — and the TXG's
dirty record carries an empty write-range list (the full-block shortcut
of `dbuf_dirty_record_add_range` cleared it and the `out:` state change
advanced PARTIAL|FILL to FILL). -/
theorem claim_C5_full_block_write (env : ReadEnv) (db : Dbuf) (txg : Nat)
    (hst : db.state = stUNCACHED)
    (hbuf : db.buf = none) :
    (dbuf_dirty_leaf env db txg 0 db.size).1.state = stFILL ∧
    (dbuf_dirty_leaf env db txg 0 db.size).1.state.partB = false ∧
    ∀ r ∈ (dbuf_dirty_leaf env db txg 0 db.size).1.dirtyRecords,
      r.txg = txg → r.writeRanges = [] := by
  have h1 : dbuf_dirty_handle_fault env db txg 0 db.size = (db, []) := by
    unfold dbuf_dirty_handle_fault
    rw [hst]
    rw [if_neg (show ¬(stUNCACHED.partB = true) by decide)]
    rw [if_pos rfl]
    rw [if_neg (by simp)]
    rw [if_neg (by simp)]
  have hA_state : (dbuf_dirty_set_data
      { db with state := stPARTIAL_FILL }).state = stPARTIAL_FILL := rfl
  have hA_recs : (dbuf_dirty_set_data
      { db with state := stPARTIAL_FILL }).dirtyRecords =
      db.dirtyRecords := rfl
  cases halready : txgAlreadyDirty db.dirtyRecords txg with
  | true =>
      have hmain : (dbuf_dirty_leaf env db txg 0 db.size).1 =
          dbuf_dirty_record_add_range_db
            (dbuf_dirty_record_update_leaf
              (dbuf_dirty_set_data { db with state := stPARTIAL_FILL }) txg)
            txg 0 db.size := by
        unfold dbuf_dirty_leaf
        rw [h1]
        dsimp only
        rw [hst, if_pos rfl, halready]
        unfold dbuf_dirty_leaf_common
        dsimp only
        rw [if_pos (show db.buf.isNone = true by rw [hbuf]; rfl)]
        rw [if_pos (show (true : Bool) = true from rfl)]
        dsimp only
        rw [if_pos (show (dbuf_dirty_record_update_leaf
          (dbuf_dirty_set_data { db with state := stPARTIAL_FILL })
          txg).state ≠ stCACHED by rw [update_leaf_state, hA_state]; decide)]
      rw [hmain]
      have hmem : ∃ r ∈ (dbuf_dirty_record_update_leaf
          (dbuf_dirty_set_data { db with state := stPARTIAL_FILL })
          txg).dirtyRecords, r.txg = txg := by
        apply update_leaf_mem
        rw [hA_recs]
        exact txgAlreadyDirty_mem db.dirtyRecords txg halready
      have hst4 : (dbuf_dirty_record_update_leaf
          (dbuf_dirty_set_data { db with state := stPARTIAL_FILL })
          txg).state = stPARTIAL_FILL := by
        rw [update_leaf_state, hA_state]
      have hsz4 : db.size = (dbuf_dirty_record_update_leaf
          (dbuf_dirty_set_data { db with state := stPARTIAL_FILL })
          txg).size := by
        rw [update_leaf_size, dbuf_dirty_set_data_size]
      obtain ⟨hs, hr⟩ := add_range_db_full' _ txg db.size hsz4 hmem
        (Or.inr (by rw [hst4]; rfl))
      refine ⟨hs, by rw [hs]; rfl, hr⟩
  | false =>
      rcases hC : dbuf_dirty_record_create_leaf
        (dbuf_dirty_set_data { db with state := stPARTIAL_FILL }) txg
        with ⟨c, ev⟩
      have hc1 : c = (dbuf_dirty_record_create_leaf
          (dbuf_dirty_set_data { db with state := stPARTIAL_FILL })
          txg).1 := by rw [hC]
      have hmain : (dbuf_dirty_leaf env db txg 0 db.size).1 =
          dbuf_dirty_record_add_range_db c txg 0 db.size := by
        unfold dbuf_dirty_leaf
        rw [h1]
        dsimp only
        rw [hst, if_pos rfl, halready]
        unfold dbuf_dirty_leaf_common
        dsimp only
        rw [if_pos (show db.buf.isNone = true by rw [hbuf]; rfl)]
        rw [if_neg (show ¬((false : Bool) = true) by decide), hC]
        dsimp only
        rw [if_pos (show c.state ≠ stCACHED by
          rw [hc1, create_leaf_state, hA_state]; decide)]
      rw [hmain]
      have hmem : ∃ r ∈ c.dirtyRecords, r.txg = txg := by
        rw [hc1]
        exact create_leaf_mem _ txg
      have hst4 : c.state = stPARTIAL_FILL := by
        rw [hc1, create_leaf_state, hA_state]
      have hsz4 : db.size = c.size := by
        rw [hc1, create_leaf_size, dbuf_dirty_set_data_size]
      obtain ⟨hs, hr⟩ := add_range_db_full' c txg db.size hsz4 hmem
        (Or.inr (by rw [hst4]; rfl))
      refine ⟨hs, by rw [hs]; rfl, hr⟩

/-- A leaf dbuf with one dirty record for an older TXG but an UNCACHED
state (as left behind by `dbuf_free_range`'s `dbuf_clear_data`). -/
def c5Db : Dbuf :=
  { sampleDb with
      size := 8, state := stUNCACHED, buf := none, dirtycnt := 1,
      dirtyRecords :=
        [{ txg := 3, drData := { bid := 40, data := fun _ => 1, size := 8 },
           writeRanges := [{ start := 0, size := 2, end_ := 2 }],
           drZio := none, overrideZio := none }] }

/-- Closed instantiation of `claim_C5_full_block_write`: a full-block
write for TXG 6 on a concrete UNCACHED dbuf. -/
theorem claim_C5_full_block_write_witness :
    (c5Db.state = stUNCACHED ∧ c5Db.buf = none) ∧
    ((dbuf_dirty_leaf { isHole := false, arcHit := none } c5Db 6 0
        c5Db.size).1.state = stFILL ∧
      (dbuf_dirty_leaf { isHole := false, arcHit := none } c5Db 6 0
        c5Db.size).1.state.partB = false ∧
      ∀ r ∈ (dbuf_dirty_leaf { isHole := false, arcHit := none } c5Db 6 0
        c5Db.size).1.dirtyRecords, r.txg = 6 → r.writeRanges = []) :=
  ⟨⟨rfl, rfl⟩,
    claim_C5_full_block_write { isHole := false, arcHit := none } c5Db 6
      rfl rfl⟩

/-- C7: the write-range list of a leaf dirty record is kept sorted by
start offset with consecutive ranges strictly disjoint and non-adjacent
(`cur->end < next->start`, the `dbuf_dirty_record_check_ranges`
invariant, captured by `wfRanges`); registering a new range through
`dbuf_dirty_record_add_range` merges every overlapping or adjacent
existing range into one and preserves the invariant — the resulting
list is well formed and covers exactly the union of the old coverage
and the new interval (a list cleared by the full-block shortcuts covers
the whole block). -/
theorem claim_C7_add_range_invariant (rs : List Range)
    (dbSize offset size : Nat)
    (hwf : wfRanges rs)
    (hsz : 0 < size)
    (hoff : offset + size ≤ dbSize)
    (hbnd : ∀ x ∈ rs, x.end_ ≤ dbSize) :
    wfRanges (addRange rs dbSize offset size) ∧
    (addRange rs dbSize offset size = [] →
      ∀ i, i < dbSize →
        (inRanges rs i = true ∨ (offset ≤ i ∧ i < offset + size))) ∧
    (addRange rs dbSize offset size ≠ [] →
      ∀ i, inRanges (addRange rs dbSize offset size) i = true ↔
        (inRanges rs i = true ∨ (offset ≤ i ∧ i < offset + size))) := by
  by_cases hfull : offset = 0 ∧ size = dbSize
  · have hres : addRange rs dbSize offset size = [] := by
      unfold addRange
      rw [if_pos hfull]
    rw [hres]
    refine ⟨wfRanges_nil, ?_, fun hne => absurd rfl hne⟩
    intro _ i hi
    right
    omega
  · rcases hAL : addLoop { start := offset, size := size, end_ := offset + size } rs with ⟨p, m, s⟩
    have hres : addRange rs dbSize offset size =
        (if m.start = 0 ∧ m.size = dbSize then p ++ s else p ++ m :: s) := by
      unfold addRange
      rw [if_neg hfull, hAL]
    obtain ⟨cwf, ccov, cstart, cp, cs, cpend⟩ :=
      addLoop_spec rs _ p m s hAL hwf
        (by show offset < offset + size; omega)
        (by show size = offset + size - offset; omega)
    have hm_mem : m ∈ p ++ m :: s :=
      List.mem_append_right _ (List.mem_cons_self _ _)
    have hm_wf := cwf.2 m hm_mem
    by_cases hcover : m.start = 0 ∧ m.size = dbSize
    · have hmend : m.end_ = dbSize := by omega
      have hp_nil : p = [] := by
        refine List.eq_nil_iff_forall_not_mem.mpr ?_
        intro x hx
        have h1 := cpend x hx
        have h2 := (hwf.2 x (cp x hx)).1
        omega
      have hs_nil : s = [] := by
        have hchain : List.Chain' (fun r s => r.end_ < s.start) (m :: s) := by
          have hc := cwf.1
          rw [hp_nil] at hc
          simpa using hc
        have hgt := ranges_lt_of_chain m s hchain
          (fun x hx => (hwf.2 x (cs x hx)).1)
        refine List.eq_nil_iff_forall_not_mem.mpr ?_
        intro x hx
        have h1 := hgt x hx
        have h2 := hbnd x (cs x hx)
        have h3 := (hwf.2 x (cs x hx)).1
        omega
      rw [hres, if_pos hcover, hp_nil, hs_nil]
      refine ⟨wfRanges_nil, ?_, fun hne => absurd rfl hne⟩
      intro _ i hi
      have hmcov : inRanges (p ++ m :: s) i = true := by
        rw [hp_nil, hs_nil, inRanges_eq_true_iff]
        exact ⟨m, by simp, by omega⟩
      exact (ccov i).mp hmcov
    · rw [hres, if_neg hcover]
      refine ⟨cwf, ?_, fun _ i => ccov i⟩
      intro h
      exact absurd h (by simp)

/-- Closed instantiation of `claim_C7_add_range_invariant`: registering
`[1, 11)` against the well-formed list `{[0,2), [10,12)}` in a 16-byte
block. -/
theorem claim_C7_add_range_invariant_witness :
    (wfRanges [{ start := 0, size := 2, end_ := 2 },
       { start := 10, size := 2, end_ := 12 }] ∧
     (0 : Nat) < 10 ∧ (1 : Nat) + 10 ≤ 16 ∧
     (∀ x ∈ [({ start := 0, size := 2, end_ := 2 } : Range),
        { start := 10, size := 2, end_ := 12 }], x.end_ ≤ 16)) ∧
    (wfRanges (addRange [{ start := 0, size := 2, end_ := 2 },
        { start := 10, size := 2, end_ := 12 }] 16 1 10) ∧
     (addRange [{ start := 0, size := 2, end_ := 2 },
        { start := 10, size := 2, end_ := 12 }] 16 1 10 = [] →
       ∀ i, i < 16 →
         (inRanges [{ start := 0, size := 2, end_ := 2 },
            { start := 10, size := 2, end_ := 12 }] i = true ∨
          (1 ≤ i ∧ i < 1 + 10))) ∧
     (addRange [{ start := 0, size := 2, end_ := 2 },
        { start := 10, size := 2, end_ := 12 }] 16 1 10 ≠ [] →
       ∀ i, inRanges (addRange [{ start := 0, size := 2, end_ := 2 },
           { start := 10, size := 2, end_ := 12 }] 16 1 10) i = true ↔
         (inRanges [{ start := 0, size := 2, end_ := 2 },
            { start := 10, size := 2, end_ := 12 }] i = true ∨
          (1 ≤ i ∧ i < 1 + 10)))) :=
  ⟨⟨by decide, by decide, by decide, by decide⟩,
    claim_C7_add_range_invariant
      [{ start := 0, size := 2, end_ := 2 },
       { start := 10, size := 2, end_ := 12 }] 16 1 10
      (by decide) (by decide) (by decide) (by decide)⟩

/-- C9: when `free_range` covers a block whose dbuf has the FILL bit
set, `dbuf_free_range_filler_will_free` sets `freed_in_flight` instead
of clearing the dbuf (the frontend and state are left untouched and the
loop moves on); the subsequent `dbuf_fill_done` detects the flag, zeroes
the entire frontend buffer, clears the current dirty record's write
ranges, resets `freed_in_flight`, and moves the dbuf to CACHED. -/
theorem claim_C9_freed_in_flight (db : Dbuf) (dr : DirtyRecord)
    (rest : List DirtyRecord)
    (hfill : db.state.fillB = true)
    (hrecs : db.dirtyRecords = dr :: rest) :
    (dbuf_free_range_filler_will_free db).2 = true ∧
    (dbuf_free_range_filler_will_free db).1.freedInFlight = true ∧
    (dbuf_free_range_filler_will_free db).1.buf = db.buf ∧
    (dbuf_free_range_filler_will_free db).1.state = db.state ∧
    (dbuf_fill_done (dbuf_free_range_filler_will_free db).1).1.state =
      stCACHED ∧
    (dbuf_fill_done
        (dbuf_free_range_filler_will_free db).1).1.freedInFlight = false ∧
    (∀ b ∈ (dbuf_fill_done
        (dbuf_free_range_filler_will_free db).1).1.buf, ∀ i, b.data i = 0) ∧
    (∀ r ∈ (dbuf_fill_done
        (dbuf_free_range_filler_will_free db).1).1.dirtyRecords,
      r.txg = dr.txg → r.writeRanges = []) := by
  have h1 : dbuf_free_range_filler_will_free db =
      ({ db with freedInFlight := true }, true) := by
    unfold dbuf_free_range_filler_will_free
    rw [if_pos hfill]
  rw [h1]
  refine ⟨rfl, rfl, rfl, rfl, ?_⟩
  have h2 : dbuf_fill_done { db with freedInFlight := true } =
      ({ db with
          buf := db.buf.map fun b => { b with data := fun _ => 0 },
          freedInFlight := false,
          dirtyRecords := (dr :: rest).map fun r =>
            if r.txg = dr.txg then
              { r with writeRanges := [], overrideZio := none }
            else r,
          state := stCACHED },
       dr.overrideZio.toList) := by
    unfold dbuf_fill_done
    rw [if_pos (show ({ db with freedInFlight := true } : Dbuf).state.fillB
      = true from hfill)]
    dsimp only
    rw [hrecs]
    rfl
  rw [h2]
  refine ⟨rfl, rfl, ?_, ?_⟩
  · intro b hb i
    simp only [Option.mem_def, Option.map_eq_some'] at hb
    obtain ⟨a, _, hab⟩ := hb
    rw [← hab]
  · intro r hr htxg
    simp only [List.mem_map] at hr
    obtain ⟨a, ha, har⟩ := hr
    by_cases hat : a.txg = dr.txg
    · rw [← har, if_pos hat]
    · rw [← har, if_neg hat] at htxg ⊢
      exact absurd htxg hat

/-- Buffer of the C9 witness dbuf's frontend. -/
def c9Buf : ArcBuf := { bid := 30, data := fun i => 3 + i, size := 8 }

/-- Dirty record of the C9 witness dbuf. -/
def c9Dr : DirtyRecord :=
  { txg := 4, drData := c9Buf,
    writeRanges := [{ start := 1, size := 2, end_ := 3 }],
    drZio := none, overrideZio := some 77 }

/-- A dbuf mid-fill (FILL set) with one dirty record carrying a write
range and a pending override zio. -/
def c9Db : Dbuf :=
  { sampleDb with
      size := 8, state := stFILL, dirtycnt := 1, buf := some c9Buf,
      dirtyRecords := [c9Dr] }

/-- Closed instantiation of `claim_C9_freed_in_flight` at a concrete
mid-fill dbuf. -/
theorem claim_C9_freed_in_flight_witness :
    (c9Db.state.fillB = true ∧ c9Db.dirtyRecords = [c9Dr]) ∧
    ((dbuf_free_range_filler_will_free c9Db).2 = true ∧
      (dbuf_free_range_filler_will_free c9Db).1.freedInFlight = true ∧
      (dbuf_free_range_filler_will_free c9Db).1.buf = c9Db.buf ∧
      (dbuf_free_range_filler_will_free c9Db).1.state = c9Db.state ∧
      (dbuf_fill_done (dbuf_free_range_filler_will_free c9Db).1).1.state =
        stCACHED ∧
      (dbuf_fill_done
          (dbuf_free_range_filler_will_free c9Db).1).1.freedInFlight =
        false ∧
      (∀ b ∈ (dbuf_fill_done
          (dbuf_free_range_filler_will_free c9Db).1).1.buf,
        ∀ i, b.data i = 0) ∧
      (∀ r ∈ (dbuf_fill_done
          (dbuf_free_range_filler_will_free c9Db).1).1.dirtyRecords,
        r.txg = c9Dr.txg → r.writeRanges = [])) :=
  ⟨⟨rfl, rfl⟩, claim_C9_freed_in_flight c9Db c9Dr [] rfl rfl⟩

/-- C10: `dbuf_spill_set_blksz` on a spill dbuf clamps the requested
size — 0 becomes `SPA_MINBLOCKSIZE`, anything above `SPA_MAXBLOCKSIZE`
becomes `SPA_MAXBLOCKSIZE`, and any other size is rounded up to the next
multiple of `SPA_MINBLOCKSIZE` (the least multiple at least the request)
— resizes the dbuf to the clamped size, and returns success (0). -/
theorem claim_C10_spill_set_blksz (db : Dbuf) (blksz : Nat)
    (h : db.blkid = BlkId.spill) :
    dbuf_spill_set_blksz db blksz = .ok { db with size := spillClamp blksz } ∧
    (blksz = 0 → spillClamp blksz = SPA_MINBLOCKSIZE) ∧
    (SPA_MAXBLOCKSIZE < blksz → spillClamp blksz = SPA_MAXBLOCKSIZE) ∧
    (0 < blksz → blksz ≤ SPA_MAXBLOCKSIZE →
      spillClamp blksz % SPA_MINBLOCKSIZE = 0 ∧
      blksz ≤ spillClamp blksz ∧
      spillClamp blksz < blksz + SPA_MINBLOCKSIZE) := by
  refine ⟨by simp [dbuf_spill_set_blksz, h], ?_, ?_, ?_⟩
  · intro h0; subst h0; decide
  · intro hgt
    have h0 : blksz ≠ 0 := by
      intro h0; subst h0; exact absurd hgt (by decide)
    simp [spillClamp, h0, if_pos hgt]
  · intro hpos hle
    have h0 : blksz ≠ 0 := Nat.pos_iff_ne_zero.mp hpos
    have hngt : ¬ blksz > SPA_MAXBLOCKSIZE := not_lt.mpr hle
    have hc : spillClamp blksz = P2ROUNDUP blksz SPA_MINBLOCKSIZE := by
      simp [spillClamp, h0, hngt]
    rw [hc]
    have hdm := Nat.div_add_mod (blksz + 511) 512
    have hmlt : (blksz + 511) % 512 < 512 := Nat.mod_lt _ (by decide)
    unfold P2ROUNDUP SPA_MINBLOCKSIZE
    refine ⟨Nat.mul_mod_left _ _, ?_, ?_⟩ <;> omega

/-- Closed instantiation of `claim_C10_spill_set_blksz` on a spill dbuf
with a 1000-byte request. -/
theorem claim_C10_spill_set_blksz_witness :
    ({ sampleDb with blkid := BlkId.spill } : Dbuf).blkid = BlkId.spill ∧
    (dbuf_spill_set_blksz { sampleDb with blkid := BlkId.spill } 1000 =
        .ok { { sampleDb with blkid := BlkId.spill } with
                size := spillClamp 1000 } ∧
      ((1000 : Nat) = 0 → spillClamp 1000 = SPA_MINBLOCKSIZE) ∧
      (SPA_MAXBLOCKSIZE < 1000 → spillClamp 1000 = SPA_MAXBLOCKSIZE) ∧
      ((0 : Nat) < 1000 → 1000 ≤ SPA_MAXBLOCKSIZE →
        spillClamp 1000 % SPA_MINBLOCKSIZE = 0 ∧
        1000 ≤ spillClamp 1000 ∧
        spillClamp 1000 < 1000 + SPA_MINBLOCKSIZE)) :=
  ⟨by decide,
    claim_C10_spill_set_blksz { sampleDb with blkid := BlkId.spill } 1000
      (by decide)⟩

/-- C6: dirtying a range strictly inside the block (`0 < offset`,
`offset + size < block_size`) of an UNCACHED leaf dbuf with no dirty
record first issues a resolving read (the UNCACHED → READ transition of
`dbuf_dirty_handle_fault` / `dbuf_transition_to_read`) and only then
creates the TXG's dirty record: the event trace of `dbuf_dirty_leaf` is
exactly `readIssued` followed by `recordCreated txg`. -/
theorem claim_C6_interior_write_reads_first (env : ReadEnv) (db : Dbuf)
    (txg offset size : Nat)
    (hst : db.state = stUNCACHED)
    (hrec : db.dirtyRecords = [])
    (hhole : env.isHole = false)
    (hoff : 0 < offset)
    (hend : offset + size < db.size) :
    (dbuf_dirty_leaf env db txg offset size).2 =
      [DbufEvent.readIssued, DbufEvent.recordCreated txg] := by
  have h0 : dbuf_read_hole env db = none := by
    unfold dbuf_read_hole
    rw [if_pos hst, if_neg (show ¬(env.isHole = true) by rw [hhole]; decide)]
  have h1 : dbuf_transition_to_read env db =
      ({ db with state := stREAD }, [DbufEvent.readIssued]) := by
    unfold dbuf_transition_to_read
    rw [h0]
  have h2 : dbuf_dirty_handle_fault env db txg offset size =
      ({ db with state := stREAD }, [DbufEvent.readIssued]) := by
    unfold dbuf_dirty_handle_fault
    rw [if_neg (show ¬(db.state.partB = true) by rw [hst]; decide)]
    rw [if_pos hst]
    rw [if_pos (show offset ≠ 0 ∧ offset + size ≠ db.size by
      exact ⟨by omega, by omega⟩)]
    exact h1
  unfold dbuf_dirty_leaf
  rw [h2, hrec]
  rfl

/-- An UNCACHED leaf dbuf with no dirty record, used to instantiate the
C6 ordering theorem. -/
def c6Db : Dbuf :=
  { sampleDb with size := 8, state := stUNCACHED, buf := none,
                  dirtyRecords := [], dirtycnt := 0 }

/-- Closed instantiation of `claim_C6_interior_write_reads_first`: a
write of `[2, 5)` into an 8-byte UNCACHED block for TXG 7. -/
theorem claim_C6_interior_write_reads_first_witness :
    (c6Db.state = stUNCACHED ∧ c6Db.dirtyRecords = [] ∧
      ({ isHole := false, arcHit := none } : ReadEnv).isHole = false ∧
      0 < 2 ∧ 2 + 3 < c6Db.size) ∧
    (dbuf_dirty_leaf { isHole := false, arcHit := none } c6Db 7 2 3).2 =
      [DbufEvent.readIssued, DbufEvent.recordCreated 7] :=
  ⟨⟨rfl, rfl, rfl, by decide, by decide⟩,
    claim_C6_interior_write_reads_first { isHole := false, arcHit := none }
      c6Db 7 2 3 rfl rfl rfl (by decide) (by decide)⟩

/-! ## TXG ordering of the dirty-record list (C8) -/

/-- The TXGs of a dirty-record list, in list order (newest first). -/
def drTxgs (rs : List DirtyRecord) : List Nat :=
  rs.map DirtyRecord.txg

/-- The `dbuf_verify` ordering invariant: a newest-first dirty-record
list is strictly decreasing in TXG. -/
def dirtyRecordsOrdered (rs : List DirtyRecord) : Prop :=
  List.Chain' (fun a b => b < a) (drTxgs rs)

theorem ordered_of_txgs_eq (rs1 rs2 : List DirtyRecord)
    (h : drTxgs rs1 = drTxgs rs2) (h2 : dirtyRecordsOrdered rs2) :
    dirtyRecordsOrdered rs1 := by
  unfold dirtyRecordsOrdered at *
  rw [h]
  exact h2

theorem drTxgs_map (rs : List DirtyRecord) (f : DirtyRecord → DirtyRecord)
    (h : ∀ r, (f r).txg = r.txg) : drTxgs (rs.map f) = drTxgs rs := by
  unfold drTxgs
  rw [List.map_map]
  exact List.map_congr_left (fun r _ => h r)

theorem drTxgs_resolveGo (old : ArcBuf) (rs : List DirtyRecord) :
    drTxgs (resolveGo old rs) = drTxgs rs := by
  induction rs generalizing old with
  | nil => rfl
  | cons dr rest ih =>
      conv_lhs => rw [resolveGo]
      show dr.txg :: drTxgs (resolveGo (dbuf_merge_write_ranges dr old) rest)
        = dr.txg :: drTxgs rest
      rw [ih]

theorem drTxgs_clearOverrideOldest (rs : List DirtyRecord) :
    drTxgs (clearOverrideOldest rs) = drTxgs rs := by
  induction rs with
  | nil => rfl
  | cons r rest ih =>
      cases rest with
      | nil => rfl
      | cons a t =>
          show r.txg :: drTxgs (clearOverrideOldest (a :: t)) =
            r.txg :: drTxgs (a :: t)
          rw [ih]

theorem drTxgs_reverse (rs : List DirtyRecord) :
    drTxgs rs.reverse = (drTxgs rs).reverse := by
  unfold drTxgs
  exact List.map_reverse _ _

theorem drTxgs_resolve_ranges (db : Dbuf) (buf : ArcBuf) :
    drTxgs (dbuf_resolve_ranges db buf).dirtyRecords =
      drTxgs db.dirtyRecords := by
  unfold dbuf_resolve_ranges
  dsimp only
  rw [drTxgs_reverse, drTxgs_resolveGo, drTxgs_reverse,
    List.reverse_reverse]

theorem drTxgs_read_complete (db : Dbuf) (buf : ArcBuf) (h : Bool) :
    drTxgs (dbuf_read_complete db buf h).1.dirtyRecords =
      drTxgs db.dirtyRecords := by
  unfold dbuf_read_complete
  split
  · dsimp only
    split
    · dsimp only
      rw [drTxgs_clearOverrideOldest]
      exact drTxgs_resolve_ranges db buf
    · split
      · dsimp only
        rw [drTxgs_clearOverrideOldest]
        exact drTxgs_resolve_ranges db buf
      · rw [drTxgs_clearOverrideOldest]
        exact drTxgs_resolve_ranges db buf
  · split
    · rfl
    · rfl

theorem drTxgs_read_hole (env : ReadEnv) (db db' : Dbuf)
    (h : dbuf_read_hole env db = some db') :
    drTxgs db'.dirtyRecords = drTxgs db.dirtyRecords := by
  unfold dbuf_read_hole at h
  by_cases h1 : db.state = stUNCACHED
  · rw [if_pos h1] at h
    by_cases h2 : env.isHole = true
    · rw [if_pos h2] at h
      dsimp only [dbuf_alloc_arcbuf] at h
      injection h with h
      subst h
      rw [drTxgs_read_complete]
    · rw [if_neg h2] at h
      exact absurd h (by simp)
  · rw [if_neg h1] at h
    exact absurd h (by simp)

theorem drTxgs_transition (env : ReadEnv) (db : Dbuf) :
    drTxgs (dbuf_transition_to_read env db).1.dirtyRecords =
      drTxgs db.dirtyRecords := by
  unfold dbuf_transition_to_read
  cases h : dbuf_read_hole env db with
  | some db' => exact drTxgs_read_hole env db db' h
  | none => rfl

theorem drTxgs_read_cached (env : ReadEnv) (db : Dbuf) :
    drTxgs (dbuf_read_cached env db).1.dirtyRecords =
      drTxgs db.dirtyRecords := by
  unfold dbuf_read_cached
  cases h : dbuf_read_hole env db with
  | some db' => exact drTxgs_read_hole env db db' h
  | none =>
      cases env.arcHit with
      | some buf =>
          dsimp only
          rw [drTxgs_read_complete]
      | none => rfl

theorem drTxgs_handle_fault (env : ReadEnv) (db : Dbuf)
    (txg offset size : Nat) :
    drTxgs (dbuf_dirty_handle_fault env db txg offset size).1.dirtyRecords
      = drTxgs db.dirtyRecords := by
  unfold dbuf_dirty_handle_fault
  split
  · split
    · split
      · exact drTxgs_transition env db
      · rfl
    · rfl
  · split
    · split
      · exact drTxgs_transition env db
      · split
        · exact drTxgs_read_cached env db
        · rfl
    · rfl

/-- `txgAlreadyDirty` seen on the TXG list alone. -/
def txgAux (txg : Nat) (ts : List Nat) : Bool :=
  match (ts.dropWhile (fun t => decide (txg < t))).head? with
  | some t => decide (t = txg)
  | none => false

theorem txgAlreadyDirty_eq_aux (rs : List DirtyRecord) (txg : Nat) :
    txgAlreadyDirty rs txg = txgAux txg (drTxgs rs) := by
  induction rs with
  | nil => rfl
  | cons r rest ih =>
      unfold txgAlreadyDirty txgAux
      rw [show drTxgs (r :: rest) = r.txg :: drTxgs rest from rfl]
      rw [List.dropWhile_cons, List.dropWhile_cons]
      by_cases hc : txg < r.txg
      · rw [if_pos (decide_eq_true hc), if_pos (decide_eq_true hc)]
        exact ih
      · rw [if_neg (show ¬(decide (txg < r.txg) = true) by simpa using hc),
          if_neg (show ¬(decide (txg < r.txg) = true) by simpa using hc)]
        rfl

theorem txgAlreadyDirty_congr (rs1 rs2 : List DirtyRecord) (txg : Nat)
    (h : drTxgs rs1 = drTxgs rs2) :
    txgAlreadyDirty rs1 txg = txgAlreadyDirty rs2 txg := by
  rw [txgAlreadyDirty_eq_aux, txgAlreadyDirty_eq_aux, h]

theorem head_dropWhile_false {α : Type _} (p : α → Bool) (l : List α)
    (x : α) (h : (l.dropWhile p).head? = some x) : p x = false := by
  induction l with
  | nil => simp [List.dropWhile] at h
  | cons a t ih =>
      rw [List.dropWhile_cons] at h
      by_cases hp : p a = true
      · rw [if_pos hp] at h
        exact ih h
      · rw [if_neg hp] at h
        simp only [List.head?_cons, Option.some.injEq] at h
        subst h
        exact Bool.eq_false_iff.mpr hp

/-- `dbuf_dirty_record_register` keeps the newest-first list strictly
decreasing in TXG when the TXG is not already dirty. -/
theorem insert_ordered (rs : List DirtyRecord) (dr : DirtyRecord)
    (hord : dirtyRecordsOrdered rs)
    (hfresh : txgAlreadyDirty rs dr.txg = false) :
    dirtyRecordsOrdered (insertDirtyRecord rs dr) := by
  unfold dirtyRecordsOrdered drTxgs at hord ⊢
  rw [List.chain'_map] at hord ⊢
  unfold insertDirtyRecord
  rw [List.chain'_append]
  refine ⟨?_, ?_, ?_⟩
  · exact List.Chain'.prefix hord ( List.takeWhile_prefix _)
  · rw [List.chain'_cons']
    constructor
    · intro y hy
      have hy' : (rs.dropWhile
          (fun r => decide (dr.txg < r.txg))).head? = some y := hy
      have hple := head_dropWhile_false _ rs y hy'
      have hle : ¬ dr.txg < y.txg := by simpa using hple
      have hne : y.txg ≠ dr.txg := by
        have hfr := hfresh
        unfold txgAlreadyDirty at hfr
        rw [hy'] at hfr
        simpa using hfr
      show y.txg < dr.txg
      omega
    · exact List.Chain'.suffix hord (List.dropWhile_suffix _)
  · intro x hx y hy
    have hx' : x ∈ rs.takeWhile (fun r => decide (dr.txg < r.txg)) :=
      List.mem_of_mem_getLast? hx
    have hpx := List.mem_takeWhile_imp hx'
    have hdy : dr = y := by simpa using hy
    subst hdy
    show dr.txg < x.txg
    simpa using hpx

theorem create_leaf_ordered (d : Dbuf) (txg : Nat)
    (hord : dirtyRecordsOrdered d.dirtyRecords)
    (hfresh : txgAlreadyDirty d.dirtyRecords txg = false) :
    dirtyRecordsOrdered
      (dbuf_dirty_record_create_leaf d txg).1.dirtyRecords := by
  unfold dbuf_dirty_record_create_leaf
  dsimp only
  split
  · exact insert_ordered _ _ hord hfresh
  · exact insert_ordered _ _ hord hfresh

theorem drTxgs_update_leaf (d : Dbuf) (txg : Nat) :
    drTxgs (dbuf_dirty_record_update_leaf d txg).dirtyRecords =
      drTxgs d.dirtyRecords := by
  unfold dbuf_dirty_record_update_leaf
  split
  · dsimp only
    apply drTxgs_map
    intro r
    split <;> rfl
  · rfl

theorem drTxgs_applyUnoverride (d : Dbuf) (txg : Nat) :
    drTxgs (applyUnoverride d txg).dirtyRecords =
      drTxgs d.dirtyRecords := by
  unfold applyUnoverride
  dsimp only
  apply drTxgs_map
  intro r
  split <;> rfl

theorem drTxgs_set_data (d : Dbuf) :
    drTxgs (dbuf_dirty_set_data d).dirtyRecords =
      drTxgs d.dirtyRecords := rfl

theorem drTxgs_existing_frontend (d : Dbuf) (already : Bool) (txg : Nat) :
    drTxgs
      (dbuf_dirty_leaf_with_existing_frontend d already txg).dirtyRecords
      = drTxgs d.dirtyRecords := by
  unfold dbuf_dirty_leaf_with_existing_frontend
  dsimp only
  set d0 := if already then applyUnoverride d txg else d with hd0
  have hbase : drTxgs d0.dirtyRecords = drTxgs d.dirtyRecords := by
    rw [hd0]
    split
    · exact drTxgs_applyUnoverride d txg
    · rfl
  rw [← hbase]
  split
  · rfl
  · split
    · split
      · split
        · exact drTxgs_set_data d0
        · dsimp only [dbuf_alloc_arcbuf]
          apply drTxgs_map
          intro r
          split <;> rfl
      · rfl
    · rfl

theorem drTxgs_add_range_db (d : Dbuf) (txg o s : Nat) :
    drTxgs (dbuf_dirty_record_add_range_db d txg o s).dirtyRecords =
      drTxgs d.dirtyRecords := by
  unfold dbuf_dirty_record_add_range_db
  dsimp only
  split
  · dsimp only
    apply drTxgs_map
    intro r
    unfold addRangeUpd
    split <;> rfl
  · dsimp only
    apply drTxgs_map
    intro r
    unfold addRangeUpd
    split <;> rfl

theorem drTxgs_frontend_stage (d : Dbuf) (already : Bool) (txg : Nat) :
    drTxgs (if d.buf.isNone then dbuf_dirty_set_data d
        else dbuf_dirty_leaf_with_existing_frontend d already
          txg).dirtyRecords
      = drTxgs d.dirtyRecords := by
  split
  · exact drTxgs_set_data d
  · exact drTxgs_existing_frontend d already txg

theorem common_ordered (d : Dbuf) (already : Bool) (txg o s : Nat)
    (hord : dirtyRecordsOrdered d.dirtyRecords)
    (hfresh : already = false →
      txgAlreadyDirty d.dirtyRecords txg = false) :
    dirtyRecordsOrdered
      (dbuf_dirty_leaf_common d already txg o s).1.dirtyRecords := by
  cases halready : already with
  | true =>
      unfold dbuf_dirty_leaf_common
      dsimp only
      rw [if_pos rfl]
      dsimp only
      by_cases hs : (dbuf_dirty_record_update_leaf
          (if d.buf.isNone then dbuf_dirty_set_data d
           else dbuf_dirty_leaf_with_existing_frontend d true txg)
          txg).state ≠ stCACHED
      · rw [if_pos hs]
        exact ordered_of_txgs_eq _ _
          (by rw [drTxgs_add_range_db, drTxgs_update_leaf,
                drTxgs_frontend_stage]) hord
      · rw [if_neg hs]
        exact ordered_of_txgs_eq _ _
          (by rw [drTxgs_update_leaf, drTxgs_frontend_stage]) hord
  | false =>
      unfold dbuf_dirty_leaf_common
      dsimp only
      rw [if_neg (show ¬(false = true) by decide)]
      rcases hc : dbuf_dirty_record_create_leaf
          (if d.buf.isNone then dbuf_dirty_set_data d
           else dbuf_dirty_leaf_with_existing_frontend d false txg) txg
        with ⟨d2, ev⟩
      dsimp only
      have hd2 : d2 = (dbuf_dirty_record_create_leaf
          (if d.buf.isNone then dbuf_dirty_set_data d
           else dbuf_dirty_leaf_with_existing_frontend d false txg)
          txg).1 := by rw [hc]
      have hoc : dirtyRecordsOrdered d2.dirtyRecords := by
        rw [hd2]
        apply create_leaf_ordered
        · exact ordered_of_txgs_eq _ _ (drTxgs_frontend_stage d false txg)
            hord
        · rw [txgAlreadyDirty_congr _ d.dirtyRecords txg
            (drTxgs_frontend_stage d false txg)]
          exact hfresh halready
      split
      · exact ordered_of_txgs_eq _ _ (drTxgs_add_range_db d2 txg o s) hoc
      · exact hoc

theorem dirty_leaf_ordered (env : ReadEnv) (db : Dbuf) (txg o s : Nat)
    (hord : dirtyRecordsOrdered db.dirtyRecords) :
    dirtyRecordsOrdered
      (dbuf_dirty_leaf env db txg o s).1.dirtyRecords := by
  unfold dbuf_dirty_leaf
  rcases hf : dbuf_dirty_handle_fault env db txg o s with ⟨d1, e1⟩
  dsimp only
  have h1 : drTxgs d1.dirtyRecords = drTxgs db.dirtyRecords := by
    have h := drTxgs_handle_fault env db txg o s
    rw [hf] at h
    exact h
  have h2 : (if d1.state = stUNCACHED then
        { d1 with state := stPARTIAL_FILL }
      else if d1.state.readB || d1.state.partB then
        { d1 with state := stSetFill d1.state }
      else d1).dirtyRecords = d1.dirtyRecords := by
    split
    · rfl
    · split <;> rfl
  rcases hcom : dbuf_dirty_leaf_common
      (if d1.state = stUNCACHED then { d1 with state := stPARTIAL_FILL }
       else if d1.state.readB || d1.state.partB then
         { d1 with state := stSetFill d1.state }
       else d1)
      (txgAlreadyDirty d1.dirtyRecords txg) txg o s with ⟨d3, e2⟩
  dsimp only
  have hres := common_ordered
    (if d1.state = stUNCACHED then { d1 with state := stPARTIAL_FILL }
     else if d1.state.readB || d1.state.partB then
       { d1 with state := stSetFill d1.state }
     else d1)
    (txgAlreadyDirty d1.dirtyRecords txg) txg o s
    (ordered_of_txgs_eq _ _ (by rw [h2, h1]) hord)
    (by intro hfr
        rw [h2]
        exact hfr)
  rw [hcom] at hres
  exact hres

/-- C8: the dirty-record list is newest-first strictly decreasing in
TXG — `dbuf_dirty_leaf` (fault handling, record creation at the
`insert_pt` of `dbuf_dirty_record_register`, range registration)
preserves the invariant for any write — and the TXG assertion of
`dbuf_dirty_compute_state` lets a non-meta-dnode object dirty only a
TXG at least as new as the newest record's. -/
theorem claim_C8_txg_ordering (env : ReadEnv) (db : Dbuf)
    (txg offset size : Nat)
    (hord : dirtyRecordsOrdered db.dirtyRecords) :
    dirtyRecordsOrdered
      (dbuf_dirty_leaf env db txg offset size).1.dirtyRecords ∧
    (db.objMetaDnode = false → dbuf_dirty_verify_txg db txg = true →
      ∀ dr ∈ db.dirtyRecords.head?, dr.txg ≤ txg) := by
  constructor
  · exact dirty_leaf_ordered env db txg offset size hord
  · intro hmeta hver dr hdr
    unfold dbuf_dirty_verify_txg at hver
    rw [show db.dirtyRecords.head? = some dr from hdr, hmeta] at hver
    simpa using hver

/-- Newest dirty record of the C8 witness dbuf (TXG 9). -/
def c8DrA : DirtyRecord :=
  { txg := 9, drData := { bid := 40, data := fun _ => 2, size := 8 },
    writeRanges := [], drZio := none, overrideZio := none }

/-- Older dirty record of the C8 witness dbuf (TXG 4). -/
def c8DrB : DirtyRecord :=
  { txg := 4, drData := { bid := 41, data := fun _ => 3, size := 8 },
    writeRanges := [], drZio := none, overrideZio := none }

/-- A CACHED dbuf with two dirty records in strictly decreasing TXG
order, about to be dirtied in a fresh newer TXG. -/
def c8Db : Dbuf :=
  { sampleDb with
      size := 8, state := stCACHED,
      buf := some { bid := 42, data := fun _ => 5, size := 8 },
      dirtyRecords := [c8DrA, c8DrB], dirtycnt := 2 }

/-- Closed instantiation of `claim_C8_txg_ordering`: dirtying TXG 12 on
a dbuf whose records carry TXGs 9 and 4. -/
theorem claim_C8_txg_ordering_witness :
    dirtyRecordsOrdered c8Db.dirtyRecords ∧
    (dirtyRecordsOrdered
        (dbuf_dirty_leaf { isHole := false, arcHit := none } c8Db 12 1
          2).1.dirtyRecords ∧
      (c8Db.objMetaDnode = false → dbuf_dirty_verify_txg c8Db 12 = true →
        ∀ dr ∈ c8Db.dirtyRecords.head?, dr.txg ≤ 12)) := by
  have h : dirtyRecordsOrdered c8Db.dirtyRecords := by
    show List.Chain' (fun a b => b < a) [9, 4]
    exact List.chain'_pair.mpr (by omega)
  exact ⟨h, claim_C8_txg_ordering { isHole := false, arcHit := none }
    c8Db 12 1 2 h⟩

end DbufSpec
